import Mathlib

/-!
# Smart Inline Function: a shallow embedding of the inlining core

This file embeds the core of the `smart-inline-function` TypeScript repository
in Lean 4 and settles the frozen claims about it.

Embedding conventions, used throughout:

* TypeScript AST expression nodes become the mutual inductive family `Expr`
  (with explicit list spines `ExprList`, `PropList`, `SpanList` so that
  structural recursion and decidable equality are available).
* `ts.isExpression` holds for every node of the embedded expression universe
  (in the TypeScript compiler it holds for `SpreadElement` and
  `OmittedExpression` as well), so the source's `ts.isExpression(...)` guards
  are identically true and are not repeated in the embedding.
* JavaScript `Map<string, ts.Expression>` becomes an insertion-ordered
  association list `ConstEnv`; `Map.get`/`Map.set`/`Map.has`/`Map.size`
  become `envGet`/`envSet`/`envHas`/`envSize` with the same semantics
  (set replaces in place, keeps insertion order).
* Numeric literals carry their mathematical value (an `Int`); the claims only
  involve integer literals written canonically, so `Number(text)` and the
  textual property-key comparisons of the source are mirrored by integer
  equality and by `toString`.
* Reference (in)equality tests on freshly produced nodes (`!==` used for the
  `changed` flags of the simplifier) are mirrored by structural (in)equality;
  the final tree is unchanged by this: when the flags differ the source
  rebuilds a node structurally equal to the one the embedding keeps.
* Unbounded self-recursion that is not structurally decreasing in the source
  (the simplifier recursing into an argument-map entry, the literal evaluator
  recursing into a resolved constant) is modelled with an explicit fuel that
  only those call sites decrement; theorems quantify over the fuel. For the
  simplifier the results are `Option Expr` and exhausted fuel is `none`: the
  model's image of the source producing no expression (its unbounded
  recursion overflows the JS stack and the thrown error aborts the whole
  operation). The member-name assertion of the fallback's name visit (a
  thrown Debug failure in the source) is also `none`; an abnormal result
  aborts reduction and inlining exactly as a thrown exception does.
-/

set_option maxHeartbeats 1000000

namespace SmartInline

/-- Property names of object-literal members: identifier, string literal,
numeric literal, or a computed name (anything else). -/
inductive PropName where
  | pid (s : String)
  | pstr (s : String)
  | pnum (n : Int)
  | pcomputed
deriving DecidableEq, Repr

/-- Binary operator tokens handled (or deliberately not handled, `otherOp`)
by the literal evaluator. -/
inductive BinOp where
  | eqeqeq | eqeq | neqeq | neq | ltOp | leOp | gtOp | geOp
  | addOp | subOp | mulOp | divOp | otherOp
deriving DecidableEq, Repr

/-- Prefix unary operator tokens. -/
inductive UnOp where
  | bang | plusOp | minusOp | otherUn
deriving DecidableEq, Repr

mutual
/-- The expression universe of the inliner, one constructor per TypeScript
syntax shape the source inspects. `spreadElem` and `omitted` are array-element
shapes that are expressions in the TypeScript AST. -/
inductive Expr where
  | ident (name : String)
  | numLit (n : Int)
  | strLit (s : String)
  | boolLit (b : Bool)
  | noSubTemplate (text : String)
  | template (head : String) (spans : SpanList)
  | arrayLit (elements : ExprList)
  | spreadElem (e : Expr)
  | omitted
  | objectLit (props : PropList)
  | propertyAccess (base : Expr) (name : String)
  | elementAccess (base : Expr) (index : Expr)
  | conditional (cond whenTrue whenFalse : Expr)
  | binary (op : BinOp) (l : Expr) (r : Expr)
  | unary (op : UnOp) (operand : Expr)
  | paren (inner : Expr)
  | call (callee : Expr) (args : ExprList)
deriving DecidableEq, Repr

/-- Spine for lists of expressions (array elements, call arguments). -/
inductive ExprList where
  | nil
  | cons (hd : Expr) (tl : ExprList)
deriving DecidableEq, Repr

/-- One template span: an embedded expression followed by literal text. -/
inductive TemplSpan where
  | span (e : Expr) (litText : String)
deriving DecidableEq, Repr

/-- Spine for template spans. -/
inductive SpanList where
  | nil
  | cons (hd : TemplSpan) (tl : SpanList)
deriving DecidableEq, Repr

/-- Object-literal members: a plain property assignment, a spread assignment,
or any other member shape (shorthand, accessor, method). -/
inductive ObjProp where
  | propAssign (name : PropName) (init : Expr)
  | spreadAssign (e : Expr)
  | otherProp
deriving DecidableEq, Repr

/-- Spine for object-literal members. -/
inductive PropList where
  | nil
  | cons (hd : ObjProp) (tl : PropList)
deriving DecidableEq, Repr
end

/-- List append on the expression spine. -/
def exprListAppend : ExprList → ExprList → ExprList
  | .nil, ys => ys
  | .cons x tl, ys => .cons x (exprListAppend tl ys)

/-- List append on the property spine. -/
def propListAppend : PropList → PropList → PropList
  | .nil, ys => ys
  | .cons x tl, ys => .cons x (propListAppend tl ys)

/-- `elements[index]` on the expression spine. -/
def exprListGet : ExprList → Nat → Option Expr
  | .nil, _ => none
  | .cons e _, 0 => some e
  | .cons _ tl, n + 1 => exprListGet tl n

/-- A `Map<string, ts.Expression>`: insertion-ordered association list with
unique keys. -/
abbrev ConstEnv := List (String × Expr)

/-- `Map.get`. -/
def envGet (env : ConstEnv) (key : String) : Option Expr :=
  match env.find? (fun p => p.1 == key) with
  | some p => some p.2
  | none => none

/-- `Map.has`. -/
def envHas (env : ConstEnv) (key : String) : Bool :=
  env.any (fun p => p.1 == key)

/-- `Map.set`: replace in place if present, else append. -/
def envSet (env : ConstEnv) (key : String) (v : Expr) : ConstEnv :=
  if envHas env key then
    env.map (fun p => if p.1 == key then (key, v) else p)
  else
    env ++ [(key, v)]

/-- `Map.size` (keys are unique by construction). -/
def envSize (env : ConstEnv) : Nat := env.length

/-- Source `getBooleanLiteralValue` (inliningConst.ts): the value of a
`true`/`false` keyword node, else `undefined`. -/
def getBooleanLiteralValue : Expr → Option Bool
  | .boolLit b => some b
  | _ => none

/-- Source `isSimpleLiteral` (inliningConst.ts): numeric, string, or boolean
literal. -/
def isSimpleLiteral : Expr → Bool
  | .numLit _ => true
  | .strLit _ => true
  | .boolLit _ => true
  | _ => false

/-- Name shapes admitted for deep-const object properties
(identifier, string literal, numeric literal). -/
def propNameAdmissible : PropName → Bool
  | .pid _ => true
  | .pstr _ => true
  | .pnum _ => true
  | .pcomputed => false

mutual
/-- Source `isDeepConstExpr` (inliningConst.ts): literals, and arrays/objects
built only from such expressions. Spreads, elisions, computed keys and
non-assignment members disqualify. -/
def isDeepConstExpr : Expr → Bool
  | .arrayLit els => isDeepConstList els
  | .objectLit props => isDeepConstProps props
  | e => isSimpleLiteral e

/-- Every array element is deep-const (a `spreadElem` or `omitted` element is
not, via the fall-through case of `isDeepConstExpr`). -/
def isDeepConstList : ExprList → Bool
  | .nil => true
  | .cons e tl => isDeepConstExpr e && isDeepConstList tl

/-- Every member is a plain property assignment with an admissible name and a
deep-const initializer. -/
def isDeepConstProps : PropList → Bool
  | .nil => true
  | .cons p tl => isDeepConstProp p && isDeepConstProps tl

/-- One object member, as checked inside the source's `properties.every`. -/
def isDeepConstProp : ObjProp → Bool
  | .propAssign name init => propNameAdmissible name && isDeepConstExpr init
  | _ => false
end

/-- The text of a property name, for the source's `p.name.text === key`
comparisons (numeric literal texts are canonical). -/
def propNameText : PropName → Option String
  | .pid s => some s
  | .pstr s => some s
  | .pnum n => some (toString n)
  | .pcomputed => none

/-- Source `base.properties.find(...)` followed by taking the matching
property assignment's initializer. -/
def findPropInit : PropList → String → Option Expr
  | .nil, _ => none
  | .cons p tl, key =>
    match p with
    | .propAssign name init =>
      if propNameText name = some key then some init else findPropInit tl key
    | _ => findPropInit tl key

/-- Source `resolveConstExpression` (inliningConst.ts), reindexed by remaining
fuel: the source carries `depth` counting up with guard `depth > 8` and every
recursive call at `depth + 1`; here `fuel = 9 - depth`, so the guard is
`fuel = 0` and every recursive call decrements — the same function under the
change of variable, and structurally recursive. -/
def resolveGo (env : ConstEnv) : Nat → Expr → Option Expr
  | 0, _ => none
  | fuel + 1, e =>
    match e with
    | .ident name =>
      match envGet env name with
      | none => none
      | some bound => some ((resolveGo env fuel bound).getD bound)
    | .paren inner => resolveGo env fuel inner
    | .propertyAccess base name =>
      match resolveGo env fuel base with
      | some (Expr.objectLit props) =>
        match findPropInit props name with
        | some init => some ((resolveGo env fuel init).getD init)
        | none => none
      | _ => none
    | .elementAccess base idx =>
      match resolveGo env fuel base with
      | none => none
      | some b =>
        match b with
        | .arrayLit els =>
          match idx with
          | .numLit n =>
            if n < 0 then none
            else
              match exprListGet els n.toNat with
              | some el => some ((resolveGo env fuel el).getD el)
              | none => none
          | _ => none
        | .objectLit props =>
          match idx with
          | .strLit k =>
            match findPropInit props k with
            | some init => some ((resolveGo env fuel init).getD init)
            | none => none
          | .numLit n =>
            match findPropInit props (toString n) with
            | some init => some ((resolveGo env fuel init).getD init)
            | none => none
          | _ => none
        | _ => none
    | _ => none

/-- Source `resolveConstExpression(expr, env, depth)`; see `resolveGo` for the
depth-to-fuel reindexing (`depth > 8` is exactly `9 - depth = 0`). -/
def resolveConstExpression (env : ConstEnv) (e : Expr) (depth : Nat) : Option Expr :=
  resolveGo env (9 - depth) e

/-! ## The literal evaluator

`evalLiteralExpression` in inliningSubstitute works on untyped JavaScript
values. The values it can produce are booleans, numbers, strings (and the
`null` that its two guards test for); `undefined` is the `Option.none` layer
and a thrown exception is the `Except.error` layer. JavaScript numbers are
modelled as integers: every claim's literals are integers written canonically
(`jsDiv` and `jsStringToNumber` note where that model deviates from float
semantics; no claim depends on those points). -/

/-- The JavaScript values the literal evaluator manipulates. -/
inductive JSVal where
  | vBool (b : Bool)
  | vNum (n : Int)
  | vStr (s : String)
  | vNull
deriving DecidableEq, Repr

/-- JavaScript truthiness (`!v` negates this). -/
def truthy : JSVal → Bool
  | .vBool b => b
  | .vNum n => n != 0
  | .vStr s => s != ""
  | .vNull => false

/-- JS `ToNumber` on strings, restricted to integer numerals; `NaN` is not
representable in the model (no claim depends on non-numeric strings). -/
def jsStringToNumber (s : String) : Int := (s.toInt?).getD 0

/-- JS `ToNumber`. -/
def toNumber : JSVal → Int
  | .vBool b => if b then 1 else 0
  | .vNum n => n
  | .vStr s => jsStringToNumber s
  | .vNull => 0

/-- JS `ToString` (integer numbers print canonically). -/
def jsToString : JSVal → String
  | .vBool b => if b then "true" else "false"
  | .vNum n => toString n
  | .vStr s => s
  | .vNull => "null"

/-- JS strict equality `===`: same type and same value. -/
def strictEq (a b : JSVal) : Bool := a == b

/-- JS `+`: string concatenation if either operand is a string, else numeric
addition (after `ToNumber`). -/
def jsAdd (a b : JSVal) : JSVal :=
  match a, b with
  | .vStr _, _ => .vStr (jsToString a ++ jsToString b)
  | _, .vStr _ => .vStr (jsToString a ++ jsToString b)
  | _, _ => .vNum (toNumber a + toNumber b)

/-- JS `<`: lexicographic if both strings, else numeric. -/
def jsLess (a b : JSVal) : Bool :=
  match a, b with
  | .vStr x, .vStr y => decide (x < y)
  | _, _ => decide (toNumber a < toNumber b)

/-- JS `<=`. -/
def jsLessEq (a b : JSVal) : Bool :=
  match a, b with
  | .vStr x, .vStr y => decide (x ≤ y)
  | _, _ => decide (toNumber a ≤ toNumber b)

/-- JS `/` restricted to the integer model (floats and division by zero are
outside the model; no claim exercises division). -/
def jsDiv (a b : Int) : Int := a / b

/-- The constant-environment attempt at the top of the source
`evalLiteralExpression`: resolve the node against `paramConstEnv`; on a
deep-const resolution, evaluate the resolved expression (via `recEval`, the
caller-supplied recursive evaluation); a defined value is the answer, an
undefined one falls through (`.ok none` here means fall through), an
exception propagates. -/
def constAttempt (env : ConstEnv) (recEval : Expr → Except String (Option JSVal))
    (node : Expr) : Except String (Option JSVal) :=
  if envSize env > 0 then
    match resolveConstExpression env node 0 with
    | some c =>
      if isDeepConstExpr c then
        match recEval c with
        | .error m => .error m
        | .ok (some v) => .ok (some v)
        | .ok none => .ok none
      else .ok none
    | none => .ok none
  else .ok none

/-- Combine the constant-environment attempt with the structural case of one
node: a resolved value (or a propagating exception) wins, an undefined
resolution falls through to the structural result. The structural result is a
pure value, so computing it eagerly is observationally the source's lazy
fall-through. -/
def withConst (env : ConstEnv) (recEval : Expr → Except String (Option JSVal))
    (node : Expr) (structuralResult : Except String (Option JSVal)) :
    Except String (Option JSVal) :=
  match constAttempt env recEval node with
  | .error m => .error m
  | .ok (some v) => .ok (some v)
  | .ok none => structuralResult

/-- The binary-operator dispatch of the source evaluator, after both operands
evaluated to defined values. -/
def evalBinOp (op : BinOp) (a b : JSVal) : Option JSVal :=
  match op with
  | .eqeqeq => some (.vBool (strictEq a b))
  | .eqeq => some (.vBool (strictEq a b))
  | .neqeq => some (.vBool (!strictEq a b))
  | .neq => some (.vBool (!strictEq a b))
  | .ltOp => some (.vBool (jsLess a b))
  | .leOp => some (.vBool (jsLessEq a b))
  | .gtOp => some (.vBool (jsLess b a))
  | .geOp => some (.vBool (jsLessEq b a))
  | .addOp => some (jsAdd a b)
  | .subOp => some (.vNum (toNumber a - toNumber b))
  | .mulOp => some (.vNum (toNumber a * toNumber b))
  | .divOp => some (.vNum (jsDiv (toNumber a) (toNumber b)))
  | .otherOp => none

/-- One full layer of the source `evalLiteralExpression` (inliningSubstitute):
the constant-environment attempt, then the structural cases in source order.
`recEval` stands for the self-call on a resolved constant; all other
recursion is structural. -/
def evalStep (env : ConstEnv) (recEval : Expr → Except String (Option JSVal)) :
    Expr → Except String (Option JSVal)
  | .boolLit b => withConst env recEval (.boolLit b) (.ok (some (.vBool b)))
  | .numLit n => withConst env recEval (.numLit n) (.ok (some (.vNum n)))
  | .strLit s => withConst env recEval (.strLit s) (.ok (some (.vStr s)))
  | .unary op operand =>
    withConst env recEval (.unary op operand)
      (match evalStep env recEval operand with
      | .error m => .error m
      | .ok none => .ok none
      | .ok (some v) =>
        match op with
        | .bang => .ok (some (.vBool (!truthy v)))
        | .plusOp =>
          if v = .vNull then .error "Cannot convert null to number"
          else .ok (some (.vNum (toNumber v)))
        | .minusOp =>
          if v = .vNull then .error "Cannot negate null"
          else .ok (some (.vNum (-(toNumber v))))
        | .otherUn => .ok none)
  | .paren inner =>
    withConst env recEval (.paren inner) (evalStep env recEval inner)
  | .binary op l r =>
    withConst env recEval (.binary op l r)
      (match evalStep env recEval l with
      | .error m => .error m
      | .ok lv =>
        match evalStep env recEval r with
        | .error m => .error m
        | .ok rv =>
          match lv, rv with
          | some a, some b =>
            match evalBinOp op a b with
            | some v => .ok (some v)
            | none => .ok none
          | _, _ => .ok none)
  | node => withConst env recEval node (.ok none)

/-- The source `evalLiteralExpression` with an explicit budget for its one
non-structural self-call (on an expression resolved from the constant
environment). The budget only decrements through that call. -/
def evalLitB (env : ConstEnv) : Nat → Expr → Except String (Option JSVal)
  | 0, _ => .ok none
  | b + 1, e => evalStep env (evalLitB env b) e

/-- The evaluator as the simplifier consumes it. Budget 2 is exact: a resolved
constant is deep-const and a deep-const expression never resolves again
(lemma `resolve_deepConst_none`), so the non-structural self-call happens at
most once (lemma `evalLitB_budget_stable`). The error collapse is justified
by the no-throw theorem for `evalLitB`. -/
def evalLitValue (env : ConstEnv) (e : Expr) : Option JSVal :=
  match evalLitB env 2 e with
  | .ok v => v
  | .error _ => none

/-! ## The substitution/folding engine

Source `substituteAndSimplifyExpression` / inner `simplify`
(inliningSubstitute). The only non-structural recursion in the source is
`simplify(arg)` on an argument-map entry (and `simplify(inner)` on members
spliced from a resolved constant spread source); `recS` stands for those
calls and is instantiated with a fuel-decremented simplifier in `simplifyB`.
The fallback case of the source (`ts.visitEachChild` with the visitor
`child => ts.isExpression(child) ? simplify(child) : child`) visits every
child that satisfies `ts.isExpression`: the base of a property access AND its
name (`visitEachChild` visits `node.name`, and `ts.isExpression` holds for an
`Identifier`), the base and index of an element access, and a spread
element's expression; literal tokens have no children. The visited name goes
through the simplify identifier case (argument-map substitution included) and
the result is checked by `visitNode`'s `isMemberName` test: a non-identifier
result is a thrown Debug failure in the source, `none` here. Results are
`Option Expr`: `none` models the source producing no expression (fuel
exhaustion of the modelled unbounded recursion — a stack overflow — or that
assertion throw). -/

/-- The resolution applied to a simplified spread source before testing it for
splicing: `resolveConstExpression(...) ?? spreadExprSimplified` when the
parameter constant environment is non-empty. -/
def resolveSpreadSource (pce : ConstEnv) (s : Expr) : Expr :=
  if envSize pce > 0 then (resolveConstExpression pce s 0).getD s else s

mutual
/-- One layer of the source `simplify`, by syntax shape in source order.
`none` (from `recS` or from the name-visit assertion) propagates outward the
way the source's thrown errors do. -/
def simplifyStep (argMap pce : ConstEnv) (recS : Expr → Option Expr) :
    Expr → Option Expr
  | .ident name =>
    match envGet argMap name with
    | some arg => recS arg
    | none => some (.ident name)
  | .conditional c t f =>
    match simplifyStep argMap pce recS c with
    | none => none
    | some c' =>
      match simplifyStep argMap pce recS t with
      | none => none
      | some t' =>
        match simplifyStep argMap pce recS f with
        | none => none
        | some f' =>
          match evalLitValue pce c' with
          | some (.vBool true) => some t'
          | some (.vBool false) => some f'
          | _ => some (.conditional c' t' f')
  | .paren inner =>
    match simplifyStep argMap pce recS inner with
    | none => none
    | some i' => some (.paren i')
  | .template head spans =>
    match templateFold argMap pce recS spans with
    | none => none
    | some folded =>
      if folded.2 then some (.noSubTemplate (head ++ folded.1))
      else
        match templateMap argMap pce recS spans with
        | none => none
        | some spans' => some (.template head spans')
  | .binary op l r =>
    match simplifyStep argMap pce recS l with
    | none => none
    | some l' =>
      match simplifyStep argMap pce recS r with
      | none => none
      | some r' =>
        let synthetic := Expr.binary op l' r'
        match evalLitValue pce synthetic with
        | some (.vBool b) => some (.boolLit b)
        | some (.vNum n) => some (.numLit n)
        | some (.vStr s) => some (.strLit s)
        | _ => some synthetic
  | .unary op operand =>
    match simplifyStep argMap pce recS operand with
    | none => none
    | some o' =>
      let synthetic := Expr.unary op o'
      match evalLitValue pce synthetic with
      | some (.vBool b) => some (.boolLit b)
      | some (.vNum n) => some (.numLit n)
      | _ => some synthetic
  | .arrayLit els =>
    match simplifyArrayElems argMap pce recS els with
    | none => none
    | some res => some (if res.2 then .arrayLit res.1 else .arrayLit els)
  | .objectLit props =>
    match simplifyProps argMap pce recS props with
    | none => none
    | some res => some (if res.2 then .objectLit res.1 else .objectLit props)
  | .call callee args =>
    match simplifyArgs argMap pce recS args with
    | none => none
    | some args' => some (.call callee args')
  | .propertyAccess base name =>
    match simplifyStep argMap pce recS base with
    | none => none
    | some base' =>
      match envGet argMap name with
      | none => some (.propertyAccess base' name)
      | some arg =>
        match recS arg with
        | none => none
        | some (.ident n2) => some (.propertyAccess base' n2)
        | some _ => none
  | .elementAccess base idx =>
    match simplifyStep argMap pce recS base with
    | none => none
    | some b' =>
      match simplifyStep argMap pce recS idx with
      | none => none
      | some i' => some (.elementAccess b' i')
  | .spreadElem e =>
    match simplifyStep argMap pce recS e with
    | none => none
    | some e' => some (.spreadElem e')
  | node => some node

/-- The array-element loop of the source `simplify` (elements collected left
to right with a `changed` flag; a deep-const resolved spread source is
spliced member-wise through the simplifier). -/
def simplifyArrayElems (argMap pce : ConstEnv) (recS : Expr → Option Expr) :
    ExprList → Option (ExprList × Bool)
  | .nil => some (.nil, false)
  | .cons (.spreadElem e) tl =>
    match simplifyArrayElems argMap pce recS tl with
    | none => none
    | some rest =>
      match simplifyStep argMap pce recS e with
      | none => none
      | some s =>
        let resolved := resolveSpreadSource pce s
        match resolved with
        | .arrayLit inner =>
          if isDeepConstExpr (.arrayLit inner) then
            match spliceSimplify recS inner with
            | none => none
            | some spliced => some (exprListAppend spliced rest.1, true)
          else
            some (.cons (.spreadElem resolved) rest.1,
              rest.2 || decide (resolved ≠ e))
        | _ =>
          some (.cons (.spreadElem resolved) rest.1,
            rest.2 || decide (resolved ≠ e))
  | .cons el tl =>
    match simplifyArrayElems argMap pce recS tl with
    | none => none
    | some rest =>
      match simplifyStep argMap pce recS el with
      | none => none
      | some s => some (.cons s rest.1, rest.2 || decide (s ≠ el))

/-- The member-wise simplification of a spliced spread source (elements of a
resolved constant; the source calls `simplify` on them, modelled by `recS`). -/
def spliceSimplify (recS : Expr → Option Expr) : ExprList → Option ExprList
  | .nil => some .nil
  | .cons e tl =>
    match recS e with
    | none => none
    | some e' =>
      match spliceSimplify recS tl with
      | none => none
      | some tl' => some (.cons e' tl')

/-- The object-member loop of the source `simplify`. A deep-const resolved
spread source is spliced property-wise; a non-assignment member inside the
resolved object makes the source push the whole resolved spread and break. -/
def simplifyProps (argMap pce : ConstEnv) (recS : Expr → Option Expr) :
    PropList → Option (PropList × Bool)
  | .nil => some (.nil, false)
  | .cons (.spreadAssign e) tl =>
    match simplifyProps argMap pce recS tl with
    | none => none
    | some rest =>
      match simplifyStep argMap pce recS e with
      | none => none
      | some s =>
        let resolved := resolveSpreadSource pce s
        match resolved with
        | .objectLit inner =>
          if isDeepConstExpr (.objectLit inner) then
            match spliceProps recS (.objectLit inner) inner with
            | none => none
            | some spliced => some (propListAppend spliced rest.1, true)
          else
            some (.cons (.spreadAssign resolved) rest.1,
              rest.2 || decide (resolved ≠ e))
        | _ =>
          some (.cons (.spreadAssign resolved) rest.1,
            rest.2 || decide (resolved ≠ e))
  | .cons (.propAssign name init) tl =>
    match simplifyProps argMap pce recS tl with
    | none => none
    | some rest =>
      match simplifyStep argMap pce recS init with
      | none => none
      | some s => some (.cons (.propAssign name s) rest.1, rest.2 || decide (s ≠ init))
  | .cons .otherProp tl =>
    match simplifyProps argMap pce recS tl with
    | none => none
    | some rest => some (.cons .otherProp rest.1, rest.2)

/-- Property-wise splice of a resolved constant object spread (`resolvedWhole`
is pushed as a spread and the loop breaks on a non-assignment member). -/
def spliceProps (recS : Expr → Option Expr) (resolvedWhole : Expr) :
    PropList → Option PropList
  | .nil => some .nil
  | .cons (.propAssign name init) tl =>
    match recS init with
    | none => none
    | some init' =>
      match spliceProps recS resolvedWhole tl with
      | none => none
      | some tl' => some (.cons (.propAssign name init') tl')
  | .cons _ _ => some (.cons (.spreadAssign resolvedWhole) .nil)

/-- The template-span loop: accumulated literal text (appending an embedded
expression's value only when it evaluates to a string) and the `allLiteral`
flag. -/
def templateFold (argMap pce : ConstEnv) (recS : Expr → Option Expr) :
    SpanList → Option (String × Bool)
  | .nil => some ("", true)
  | .cons (.span e lit) tl =>
    match simplifyStep argMap pce recS e with
    | none => none
    | some s =>
      match templateFold argMap pce recS tl with
      | none => none
      | some rest =>
        match evalLitValue pce s with
        | some (.vStr str) => some (str ++ lit ++ rest.1, rest.2)
        | _ => some (lit ++ rest.1, false)

/-- The span rebuild of a not-fully-literal template (each embedded expression
simplified, literal texts kept). -/
def templateMap (argMap pce : ConstEnv) (recS : Expr → Option Expr) :
    SpanList → Option SpanList
  | .nil => some .nil
  | .cons (.span e lit) tl =>
    match simplifyStep argMap pce recS e with
    | none => none
    | some e' =>
      match templateMap argMap pce recS tl with
      | none => none
      | some tl' => some (.cons (.span e' lit) tl')

/-- Call arguments simplified independently (callee untouched by the caller of
this function). -/
def simplifyArgs (argMap pce : ConstEnv) (recS : Expr → Option Expr) :
    ExprList → Option ExprList
  | .nil => some .nil
  | .cons e tl =>
    match simplifyStep argMap pce recS e with
    | none => none
    | some e' =>
      match simplifyArgs argMap pce recS tl with
      | none => none
      | some tl' => some (.cons e' tl')
end

/-- The source `simplify` with explicit substitution fuel: the non-structural
self-calls (`recS` in `simplifyStep`) get the fuel decremented; everything
else is structural within one `simplifyStep` layer. Exhausted fuel is `none`:
the source has no such case — its recursion is unbounded, and on inputs where
it never bottoms out (a binding whose expression re-mentions the bound name
in a substituted position) it overflows the JS stack and produces no
expression, which is what `none` at every fuel expresses. -/
def simplifyB (argMap pce : ConstEnv) : Nat → Expr → Option Expr
  | 0, _ => none
  | f + 1, e => simplifyStep argMap pce (simplifyB argMap pce f) e

/-- Source `substituteAndSimplifyExpression(expr, argMap, paramConstEnv)`,
with the substitution fuel made explicit (`none` = no expression produced;
see `simplifyB`). -/
def substituteAndSimplifyExpression (fuel : Nat) (expr : Expr)
    (argMap paramConstEnv : ConstEnv) : Option Expr :=
  simplifyB argMap paramConstEnv fuel expr

/-! ## Statements and the control-flow-to-expression reducers

Source inliningControlFlow: `extractReturnExpressionFromStatement`,
`collectIfBranches`, `tryReduceIfElseChainToExpression`, `literalsEqual`,
`tryReduceSwitchToExpression`. Statements are embedded with the shapes those
functions inspect; `otherStmt` covers every other statement kind. -/

mutual
/-- Statement shapes inspected by the reducers. -/
inductive Stmt where
  | ret (e : Option Expr)
  | sblock (stmts : StmtList)
  | sif (cond : Expr) (thenS : Stmt) (elseS : ElsePart)
  | sswitch (disc : Expr) (clauses : ClauseList)
  | otherStmt
/-- An `if` statement's optional `else`. -/
inductive ElsePart where
  | noElse
  | someElse (s : Stmt)
/-- Spine for statement lists. -/
inductive StmtList where
  | nil
  | cons (hd : Stmt) (tl : StmtList)
/-- A switch clause: `case <expr>:` or `default:` with its statements. -/
inductive SwitchClause where
  | caseClause (e : Expr) (stmts : StmtList)
  | defaultClause (stmts : StmtList)
/-- Spine for clause lists. -/
inductive ClauseList where
  | nil
  | cons (hd : SwitchClause) (tl : ClauseList)
end

/-- One branch of a collected if/else chain (`condition` is `none` for the
trailing `else`). -/
structure IfBranch where
  condition : Option Expr
  returnExpr : Expr

/-- Source `extractReturnExpressionFromStatement`: a `return <expr>` directly
or as the sole statement of a block. -/
def extractReturnExpressionFromStatement : Stmt → Option Expr
  | .ret (some e) => some e
  | .sblock (.cons (Stmt.ret (some e)) .nil) => some e
  | _ => none

/-- Source `collectIfBranches`: walk an `if`/`else if`/`else` chain requiring
every branch to be exactly one `return <expr>`. -/
def collectIfBranches : Stmt → Option (List IfBranch)
  | .sif cond thenS elseS =>
    match extractReturnExpressionFromStatement thenS with
    | none => none
    | some thenExpr =>
      match elseS with
      | .noElse => some [⟨some cond, thenExpr⟩]
      | .someElse s =>
        match s with
        | .sif c2 t2 e2 =>
          match collectIfBranches (.sif c2 t2 e2) with
          | none => none
          | some rest => some (⟨some cond, thenExpr⟩ :: rest)
        | other =>
          match extractReturnExpressionFromStatement other with
          | none => none
          | some elseExpr => some [⟨some cond, thenExpr⟩, ⟨none, elseExpr⟩]
  | _ => none

/-- The condition loop of `tryReduceIfElseChainToExpression`: each of the
first `count` branches' conditions, simplified, must be a boolean literal
(`getBooleanLiteralValue`), else the whole reduction aborts (a simplification
producing no expression aborts as well, as the source's thrown error would). -/
def evalCondValues (fuel : Nat) (argMap pce : ConstEnv) :
    List IfBranch → Nat → Option (List Bool)
  | _, 0 => some []
  | [], _ + 1 => none
  | b :: tl, count + 1 =>
    match b.condition with
    | none => none
    | some cond =>
      match substituteAndSimplifyExpression fuel cond argMap pce with
      | none => none
      | some sc =>
        match getBooleanLiteralValue sc with
        | none => none
        | some v =>
          match evalCondValues fuel argMap pce tl count with
          | none => none
          | some rest => some (v :: rest)

/-- The branch-selection loop: the first branch whose condition value is true. -/
def firstTrueBranch : List Bool → List IfBranch → Option Expr
  | [], _ => none
  | _, [] => none
  | v :: vs, b :: bs => if v then some b.returnExpr else firstTrueBranch vs bs

/-- Source `tryReduceIfElseChainToExpression`. -/
def tryReduceIfElseChainToExpression (fuel : Nat) (body : StmtList)
    (argMap pce : ConstEnv) : Option Expr :=
  match body with
  | .cons (Stmt.sif c t e) .nil =>
    match collectIfBranches (.sif c t e) with
    | none => none
    | some branches =>
      if branches.isEmpty then none
      else
        let hasElse := (branches.getLast?).elim false (fun b => b.condition.isNone)
        let condBranchCount := if hasElse then branches.length - 1 else branches.length
        match evalCondValues fuel argMap pce branches condBranchCount with
        | none => none
        | some condValues =>
          let chosen : Option Expr :=
            match firstTrueBranch condValues branches with
            | some e => some e
            | none =>
              if hasElse then (branches.getLast?).map (·.returnExpr) else none
          match chosen with
          | none => none
          | some chosenReturnExpr =>
            substituteAndSimplifyExpression fuel chosenReturnExpr argMap pce
  | _ => none

/-- Source `literalsEqual`: boolean keywords compared as booleans (any boolean
on either side makes this the only comparison), else numeric literals by
value, else string literals by text, else not equal. -/
def literalsEqual (a b : Expr) : Bool :=
  let aBool := getBooleanLiteralValue a
  let bBool := getBooleanLiteralValue b
  if aBool.isSome || bBool.isSome then aBool == bBool && aBool.isSome
  else
    match a, b with
    | .numLit x, .numLit y => x == y
    | .strLit x, .strLit y => x == y
    | _, _ => false

/-- The clause scan of `tryReduceSwitchToExpression`, carrying the pending
`default` clause's return expression. -/
def switchClauseScan (fuel : Nat) (argMap pce : ConstEnv) (sd : Expr) :
    ClauseList → Option Expr → Option Expr
  | .nil, defaultRet =>
    match defaultRet with
    | none => none
    | some e => substituteAndSimplifyExpression fuel e argMap pce
  | .cons (.caseClause ce stmts) tl, defaultRet =>
    match substituteAndSimplifyExpression fuel ce argMap pce with
    | none => none
    | some sc =>
      if !isSimpleLiteral sc then none
      else if !literalsEqual sd sc then switchClauseScan fuel argMap pce sd tl defaultRet
      else
        match stmts with
        | .cons s .nil =>
          match extractReturnExpressionFromStatement s with
          | none => none
          | some re => substituteAndSimplifyExpression fuel re argMap pce
        | _ => none
  | .cons (.defaultClause stmts) tl, _defaultRet =>
    match stmts with
    | .cons s .nil =>
      match extractReturnExpressionFromStatement s with
      | none => none
      | some re => switchClauseScan fuel argMap pce sd tl (some re)
    | _ => none

/-- Source `tryReduceSwitchToExpression`: the simplified discriminant must be
a simple literal, then the clauses are scanned in source order. The unused
`defaultRet` parameter shape above mirrors that a later `default` overwrites
an earlier one. -/
def tryReduceSwitchToExpression (fuel : Nat) (body : StmtList)
    (argMap pce : ConstEnv) : Option Expr :=
  match body with
  | .cons (Stmt.sswitch disc clauses) .nil =>
    match substituteAndSimplifyExpression fuel disc argMap pce with
    | none => none
    | some sd =>
      if !isSimpleLiteral sd then none
      else switchClauseScan fuel argMap pce sd clauses none
  | _ => none

/-! ## The parameter binder and `inlineCallExpression`

Source inlining.ts (`inlineCallExpression` with its inner `bindLocal`).
The import-index plumbing and the final pretty-printing are outside the
claims (rendering is a black box per the spec); the model returns the final
expression. -/

/-- A binding element's own name: an identifier or a nested pattern
(the latter is unsupported by the binder). -/
inductive BindElemName where
  | beId (name : String)
  | bePattern

/-- One element of an object-destructure pattern. -/
structure ObjBindElem where
  hasDotDotDot : Bool
  hasInit : Bool
  propertyName : Option PropName
  name : BindElemName

/-- One element of an array-destructure pattern (`omittedElem` is an elision
hole). -/
inductive ArrBindElem where
  | omittedElem
  | abe (hasDotDotDot : Bool) (hasInit : Bool) (name : BindElemName)

/-- A parameter's binding name. -/
inductive BindingName where
  | bnId (name : String)
  | bnObjPattern (elements : List ObjBindElem)
  | bnArrPattern (elements : List ArrBindElem)

/-- One callee parameter. -/
structure Param where
  dotDotDot : Bool
  name : BindingName
  initializer : Option Expr

/-- Source `bindLocal`: record the binding in the argument map, and also in
the parameter constant environment when the bound expression resolves to a
deep-const value in the caller's environment. The state is
(argMap, paramConstEnv). -/
def bindLocal (callerConstEnv : ConstEnv) (st : ConstEnv × ConstEnv)
    (localName : String) (valueExpr : Expr) : ConstEnv × ConstEnv :=
  let argMap := envSet st.1 localName valueExpr
  let pce :=
    if envSize callerConstEnv > 0 then
      match resolveConstExpression callerConstEnv valueExpr 0 with
      | some c => if isDeepConstExpr c then envSet st.2 localName c else st.2
      | none => st.2
    else st.2
  (argMap, pce)

/-- The object-destructure loop of the binder: each element must be a plain
identifier element; it is bound to a property access (identifier key) or an
element access (string/numeric key) of the effective argument. -/
def bindObjElems (callerConstEnv : ConstEnv) (effectiveArg : Expr) :
    List ObjBindElem → ConstEnv × ConstEnv → Option (ConstEnv × ConstEnv)
  | [], st => some st
  | el :: tl, st =>
    if el.hasDotDotDot || el.hasInit then none
    else
      match el.name with
      | .bePattern => none
      | .beId localName =>
        let prop := el.propertyName.getD (PropName.pid localName)
        match prop with
        | .pid s =>
          bindObjElems callerConstEnv effectiveArg tl
            (bindLocal callerConstEnv st localName (.propertyAccess effectiveArg s))
        | .pstr s =>
          bindObjElems callerConstEnv effectiveArg tl
            (bindLocal callerConstEnv st localName (.elementAccess effectiveArg (.strLit s)))
        | .pnum n =>
          bindObjElems callerConstEnv effectiveArg tl
            (bindLocal callerConstEnv st localName (.elementAccess effectiveArg (.numLit n)))
        | .pcomputed => none

/-- The array-destructure loop of the binder: an elision hole advances the
index without a binding; a named element is bound to an element access of the
effective argument at the current index. -/
def bindArrElems (callerConstEnv : ConstEnv) (effectiveArg : Expr) :
    List ArrBindElem → Nat → ConstEnv × ConstEnv → Option (ConstEnv × ConstEnv)
  | [], _, st => some st
  | .omittedElem :: tl, idx, st => bindArrElems callerConstEnv effectiveArg tl (idx + 1) st
  | .abe ddd init nm :: tl, idx, st =>
    if ddd || init then none
    else
      match nm with
      | .bePattern => none
      | .beId localName =>
        bindArrElems callerConstEnv effectiveArg tl (idx + 1)
          (bindLocal callerConstEnv st localName
            (.elementAccess effectiveArg (.numLit (Int.ofNat idx))))

/-- The parameter loop of `inlineCallExpression`: effective argument =
provided argument or default; rest parameters and missing arguments abort. -/
def bindParamsLoop (callerConstEnv : ConstEnv) (callArgs : List Expr) :
    List Param → Nat → ConstEnv × ConstEnv → Option (ConstEnv × ConstEnv)
  | [], _, st => some st
  | p :: tl, i, st =>
    if p.dotDotDot then none
    else
      match (callArgs[i]?).or p.initializer with
      | none => none
      | some effectiveArg =>
        match p.name with
        | .bnId nm =>
          bindParamsLoop callerConstEnv callArgs tl (i + 1)
            (bindLocal callerConstEnv st nm effectiveArg)
        | .bnObjPattern els =>
          match bindObjElems callerConstEnv effectiveArg els st with
          | none => none
          | some st2 => bindParamsLoop callerConstEnv callArgs tl (i + 1) st2
        | .bnArrPattern els =>
          match bindArrElems callerConstEnv effectiveArg els 0 st with
          | none => none
          | some st2 => bindParamsLoop callerConstEnv callArgs tl (i + 1) st2

/-- The whole binding phase of `inlineCallExpression`: the argument map and
parameter constant environment built from empty maps. -/
def bindCallParameters (params : List Param) (callArgs : List Expr)
    (callerConstEnv : ConstEnv) : Option (ConstEnv × ConstEnv) :=
  bindParamsLoop callerConstEnv callArgs params 0 ([], [])

/-- A function body: a bare expression (concise arrow) or a statement block. -/
inductive FnBody where
  | exprBody (e : Expr)
  | blockBody (stmts : StmtList)

/-- The function-definition data `inlineCallExpression` consumes. -/
structure FnDecl where
  params : List Param
  isArrow : Bool
  body : Option FnBody
  isAsync : Bool

/-- Source `inlineCallExpression` (inlining.ts): binding, then a concise arrow
body or single-return block is substituted/simplified directly; other blocks
go through the if/else reducer and then the switch reducer. Import collection
and printing are omitted (outside the claims); the result is the final
expression. -/
def inlineCallExpression (fuel : Nat) (callArgs : List Expr) (fnDecl : FnDecl)
    (callerConstEnv : ConstEnv) : Option Expr :=
  match bindCallParameters fnDecl.params callArgs callerConstEnv with
  | none => none
  | some (argMap, pce) =>
    match fnDecl.body with
    | some (.exprBody e) =>
      if fnDecl.isArrow then substituteAndSimplifyExpression fuel e argMap pce
      else none
    | some (.blockBody stmts) =>
      match stmts with
      | .cons (Stmt.ret (some e)) .nil =>
        substituteAndSimplifyExpression fuel e argMap pce
      | _ =>
        match tryReduceIfElseChainToExpression fuel stmts argMap pce with
        | some e => some e
        | none => tryReduceSwitchToExpression fuel stmts argMap pce
    | none => none

/-! ## Collecting caller constants visible at the call

Source `collectLiteralConstsVisibleAtCall` (inliningConst.ts): walk the
enclosing blocks/source file from the call outward; in each, scan statements
in order, stopping at the first one ending after the call start; `const`
declarations with an identifier name and a deep-const initializer enter the
environment, first writer (innermost scope) wins. -/

/-- One variable declarator: its binding name (an identifier, or `none` for a
destructuring pattern) and optional initializer. -/
structure DeclModel where
  name : Option String
  initializer : Option Expr

/-- A statement of an enclosing block, as the scope walk sees it: its end
offset, and for variable statements the const flag and declarators. -/
inductive ScopeStmt where
  | varStmt (endPos : Nat) (isConst : Bool) (decls : List DeclModel)
  | otherStmt (endPos : Nat)

/-- `stmt.getEnd()`. -/
def scopeStmtEnd : ScopeStmt → Nat
  | .varStmt e _ _ => e
  | .otherStmt e => e

/-- The declarator loop: identifier name, present deep-const initializer, name
not already bound. -/
def addConstDecls (acc : ConstEnv) : List DeclModel → ConstEnv
  | [] => acc
  | d :: tl =>
    let acc2 :=
      match d.name, d.initializer with
      | some nm, some init =>
        if isDeepConstExpr init && !envHas acc nm then envSet acc nm init else acc
      | _, _ => acc
    addConstDecls acc2 tl

/-- The statement loop of one block: break at the first statement ending after
the call start; only const variable statements contribute. -/
def collectFromBlock (callStart : Nat) : List ScopeStmt → ConstEnv → ConstEnv
  | [], acc => acc
  | stmt :: tl, acc =>
    if scopeStmtEnd stmt > callStart then acc
    else
      let acc2 :=
        match stmt with
        | .varStmt _ true decls => addConstDecls acc decls
        | _ => acc
      collectFromBlock callStart tl acc2

/-- Source `collectLiteralConstsVisibleAtCall`: the enclosing blocks are given
innermost first (the parent walk visits them in that order; non-block
ancestors contribute nothing). -/
def collectLiteralConstsVisibleAtCall (scopes : List (List ScopeStmt))
    (callStart : Nat) : ConstEnv :=
  scopes.foldl (fun acc block => collectFromBlock callStart block acc) []

/-! ## The cross-file function resolver

Source `resolveFunctionDefinition` (functionResolution.ts). Its file-system
and parsing collaborators are oracles of a `ResolveWorld`; each oracle stands
for one helper of the source, so the control flow between them — which is
what claim C5 is about — is embedded exactly. -/

/-- The result of `findImportForIdentifier`. -/
structure ImportInfo where
  moduleSpecifier : String
  isRelative : Bool

/-- An abstract resolved function definition (the `FunctionInfo` payload). -/
structure FunctionInfo where
  tag : Nat
deriving DecidableEq, Repr

/-- The collaborators of `resolveFunctionDefinition`, each one oracle per
source helper (for the fixed looked-up name and caller file). -/
structure ResolveWorld where
  /-- `findFunctionInSourceFile(currentSourceFile, name)`. -/
  localFn : Option FunctionInfo
  /-- `findImportForIdentifier(currentSourceFile, name)`. -/
  importInfo : Option ImportInfo
  /-- `resolveRelativeModule(moduleSpecifier, currentFileName)`. -/
  resolveRelative : String → Option String
  /-- `tryReadFile(path)`. -/
  readFile : String → Option String
  /-- `createSourceFile` + `findExportedFunctionInSourceFile(sf, name)`. -/
  findExported : String → Option FunctionInfo
  /-- `tryResolveNodeModule(moduleSpecifier, workspaceRoot)`. -/
  resolveNodeModule : String → Option String
  /-- `fs.existsSync(siblingTs)`. -/
  fileExists : String → Bool
  /-- `tryResolveFromSourceMap(resolvedModulePath, name)`. -/
  sourceMapLookup : String → Option FunctionInfo

/-- The sibling-source path: `resolvedModulePath.replace(/\.js(x?)$/, ".ts$1")`. -/
def swapJsExtension (p : String) : String :=
  if p.endsWith ".jsx" then (p.dropRight 4) ++ ".tsx"
  else if p.endsWith ".js" then (p.dropRight 3) ++ ".ts"
  else p

/-- Source `resolveFunctionDefinition`, oracle for oracle: same file first;
then the import is inspected; a relative import resolves, reads and parses
the target, failure at any point returning not-found; a non-relative import
resolves the module path, tries the sibling source, and falls back to the
source-map lookup. -/
def resolveFunctionDefinition (w : ResolveWorld) : Option FunctionInfo :=
  match w.localFn with
  | some f => some f
  | none =>
    match w.importInfo with
    | none => none
    | some info =>
      if info.isRelative then
        match w.resolveRelative info.moduleSpecifier with
        | none => none
        | some resolved =>
          match w.readFile resolved with
          | none => none
          | some text =>
            match w.findExported text with
            | some fn => some fn
            | none => none
      else
        match w.resolveNodeModule info.moduleSpecifier with
        | none => none
        | some resolvedModulePath =>
          let siblingTs := swapJsExtension resolvedModulePath
          let siblingResult :=
            if w.fileExists siblingTs then
              match w.readFile siblingTs with
              | some text => w.findExported text
              | none => none
            else none
          match siblingResult with
          | some fn => some fn
          | none => w.sourceMapLookup resolvedModulePath

/-- The package strategy (strategy 3) of the resolver in isolation, exactly as
the non-relative branch runs it. -/
def packageStrategy (w : ResolveWorld) (moduleSpecifier : String) :
    Option FunctionInfo :=
  match w.resolveNodeModule moduleSpecifier with
  | none => none
  | some resolvedModulePath =>
    let siblingTs := swapJsExtension resolvedModulePath
    let siblingResult :=
      if w.fileExists siblingTs then
        match w.readFile siblingTs with
        | some text => w.findExported text
        | none => none
      else none
    match siblingResult with
    | some fn => some fn
    | none => w.sourceMapLookup resolvedModulePath

/-- The relative-import strategy (strategy 2) in isolation. -/
def relativeStrategy (w : ResolveWorld) (moduleSpecifier : String) :
    Option FunctionInfo :=
  match w.resolveRelative moduleSpecifier with
  | none => none
  | some resolved =>
    match w.readFile resolved with
    | none => none
    | some text =>
      match w.findExported text with
      | some fn => some fn
      | none => none

/-- The lookup cascade as the amended claim C5 states it: same file first,
first success winning; otherwise exactly one of the two import strategies is
attempted, selected by whether the import specifier is relative; a failure
inside the selected strategy is not-found without trying the other. -/
def specResolveCascade (w : ResolveWorld) : Option FunctionInfo :=
  (w.localFn).or
    (match w.importInfo with
    | none => none
    | some info =>
      if info.isRelative then relativeStrategy w info.moduleSpecifier
      else packageStrategy w info.moduleSpecifier)

/-! ## The async-context gate of `runSmartInline`

Source `validateAsyncCallContext` and the async check of `runSmartInline`
(commandRunners.ts). The parent walk of the source is abstracted to its
outcome: whether the call is the operand of an `await`, the innermost
enclosing function (with its `async` flag) if any, and whether top-level
`await` is allowed in the file. -/

/-- The call-site context the validator inspects. -/
structure CallContext where
  /-- `ts.isAwaitExpression(callExpr.parent)`. -/
  isAwaited : Bool
  /-- The innermost enclosing function-like, as `some isAsync`; `none` at the
  top level. -/
  enclosingFunction : Option Bool
  /-- `(sourceFile.flags & ts.NodeFlags.AwaitContext) !== 0`. -/
  topLevelAwaitAllowed : Bool

/-- The validator's result shape (`{ ok, message? }`). -/
inductive AsyncCheck where
  | okC
  | errC (message : String)
deriving DecidableEq, Repr

/-- Source `validateAsyncCallContext`. -/
def validateAsyncCallContext (ctx : CallContext) : AsyncCheck :=
  match ctx.enclosingFunction with
  | some isParentAsync =>
    if !isParentAsync then
      .errC "Cannot inline async function here: enclosing function is not async."
    else if !ctx.isAwaited then
      .errC "Cannot inline async function here: the call is not awaited and inlining would change its behavior."
    else .okC
  | none =>
    if !ctx.isAwaited then
      .errC "Cannot inline async function at top level unless the call is awaited."
    else if !ctx.topLevelAwaitAllowed then
      .errC "Cannot inline async function here: top-level await is not allowed in this file."
    else .okC

/-- What `runSmartInline` needs of a found call expression. -/
structure SelectedCall where
  /-- `ts.isIdentifier(callExpr.expression)`. -/
  calleeIsIdentifier : Bool
  calleeName : String
  ctx : CallContext
  args : List Expr
  /-- The enclosing blocks for `collectLiteralConstsVisibleAtCall`. -/
  scopes : List (List ScopeStmt)
  callStart : Nat

/-- The selection and resolution collaborators of `runSmartInline`. -/
structure SmartWorld where
  /-- `findSelectedCallExpression`. -/
  selected : Option SelectedCall
  /-- `resolveFunctionDefinition` for the callee name. -/
  resolved : Option FnDecl

/-- `runSmartInline`'s result, reduced to what the claims inspect (the
expression on success, the error message on failure; ranges and import texts
omitted). -/
inductive SmartResult where
  | okS (e : Expr)
  | errS (message : String)
deriving DecidableEq, Repr

/-- The tail of `runSmartInline` after a successful async gate: collect the
caller constants and inline. -/
def proceedInline (fuel : Nat) (call : SelectedCall) (fn : FnDecl) : SmartResult :=
  let callerConstEnv := collectLiteralConstsVisibleAtCall call.scopes call.callStart
  match inlineCallExpression fuel call.args fn callerConstEnv with
  | none => .errS "This function is too complex to inline safely."
  | some e => .okS e

/-- Source `runSmartInline` (commandRunners.ts): selection, callee shape,
resolution, the async-context gate for async callees, then inlining. -/
def runSmartInline (fuel : Nat) (w : SmartWorld) : SmartResult :=
  match w.selected with
  | none => .errS "No function call expression found at the selection."
  | some call =>
    if !call.calleeIsIdentifier then
      .errS "Only simple function identifiers are supported (no methods or property accesses)."
    else
      match w.resolved with
      | none =>
        .errS ("Could not resolve function declaration for \"" ++ call.calleeName ++ "\".")
      | some fn =>
        if fn.isAsync then
          match validateAsyncCallContext call.ctx with
          | .errC m => .errS m
          | .okC => proceedInline fuel call fn
        else proceedInline fuel call fn

/-! ## Supporting lemmas -/

/-- A deep-const expression is a literal or a literal aggregate, none of which
any arm of the constant resolver handles: resolving one yields nothing. This
is why the literal evaluator's self-call on a resolved constant can recurse at
most once. -/
theorem resolve_deepConst_none (c : Expr) (h : isDeepConstExpr c = true)
    (env : ConstEnv) (fuel : Nat) : resolveGo env fuel c = none := by
  cases fuel with
  | zero => rfl
  | succ f => cases c <;> simp_all [isDeepConstExpr, isSimpleLiteral, resolveGo]

/-- Evaluating a deep-const expression ignores the budget beyond the first
unit: the constant-environment attempt resolves nothing
(`resolve_deepConst_none`), and the structural case of a literal or aggregate
consumes no budget. -/
theorem evalLitB_deep (c : Expr) (h : isDeepConstExpr c = true)
    (env : ConstEnv) (b : Nat) :
    evalLitB env (b + 1) c = evalLitB env 1 c := by
  have hres : ∀ d : Nat, resolveConstExpression env c d = none := fun d =>
    resolve_deepConst_none c h env (9 - d)
  cases c <;>
    simp_all [isDeepConstExpr, isSimpleLiteral, evalLitB, evalStep, withConst,
      constAttempt]

/-- An identifier not bound in the argument map simplifies to itself at every
positive fuel (the identifier case of the source `simplify` returns the node
without recursing). -/
theorem simplifyB_free_ident (argMap pce : ConstEnv) (name : String)
    (h : envGet argMap name = none) (fuel : Nat) :
    simplifyB argMap pce (fuel + 1) (.ident name) = some (.ident name) := by
  simp [simplifyB, simplifyStep, h]

/-- The constant-environment attempt only consults the recursive evaluation
on deep-const expressions, so two evaluations agreeing there agree on it. -/
theorem constAttempt_congr (env : ConstEnv)
    (r1 r2 : Expr → Except String (Option JSVal))
    (hcong : ∀ c, isDeepConstExpr c = true → r1 c = r2 c) (node : Expr) :
    constAttempt env r1 node = constAttempt env r2 node := by
  unfold constAttempt
  by_cases hsz : envSize env > 0
  · simp only [if_pos hsz]
    cases hres : resolveConstExpression env node 0 with
    | none => rfl
    | some c =>
      by_cases hdeep : isDeepConstExpr c = true
      · simp only [if_pos hdeep, hcong c hdeep]
      · simp only [if_neg hdeep]
  · simp only [if_neg hsz]

/-- One evaluator layer depends on its recursive constant evaluation only at
deep-const expressions. -/
theorem evalStep_congr (env : ConstEnv)
    (r1 r2 : Expr → Except String (Option JSVal))
    (hcong : ∀ c, isDeepConstExpr c = true → r1 c = r2 c) :
    ∀ e : Expr, evalStep env r1 e = evalStep env r2 e
  | .boolLit b => by simp [evalStep, withConst, constAttempt_congr env r1 r2 hcong]
  | .numLit n => by simp [evalStep, withConst, constAttempt_congr env r1 r2 hcong]
  | .strLit s => by simp [evalStep, withConst, constAttempt_congr env r1 r2 hcong]
  | .unary op operand => by
    have hchild := evalStep_congr env r1 r2 hcong operand
    simp [evalStep, withConst, constAttempt_congr env r1 r2 hcong, hchild]
  | .paren inner => by
    have hchild := evalStep_congr env r1 r2 hcong inner
    simp [evalStep, withConst, constAttempt_congr env r1 r2 hcong, hchild]
  | .binary op l r => by
    have hl := evalStep_congr env r1 r2 hcong l
    have hr := evalStep_congr env r1 r2 hcong r
    simp [evalStep, withConst, constAttempt_congr env r1 r2 hcong, hl, hr]
  | .ident n => by simp [evalStep, withConst, constAttempt_congr env r1 r2 hcong]
  | .noSubTemplate t => by simp [evalStep, withConst, constAttempt_congr env r1 r2 hcong]
  | .template h sp => by simp [evalStep, withConst, constAttempt_congr env r1 r2 hcong]
  | .arrayLit els => by simp [evalStep, withConst, constAttempt_congr env r1 r2 hcong]
  | .spreadElem e => by simp [evalStep, withConst, constAttempt_congr env r1 r2 hcong]
  | .omitted => by simp [evalStep, withConst, constAttempt_congr env r1 r2 hcong]
  | .objectLit props => by simp [evalStep, withConst, constAttempt_congr env r1 r2 hcong]
  | .propertyAccess b n => by simp [evalStep, withConst, constAttempt_congr env r1 r2 hcong]
  | .elementAccess b i => by simp [evalStep, withConst, constAttempt_congr env r1 r2 hcong]
  | .conditional c t f => by simp [evalStep, withConst, constAttempt_congr env r1 r2 hcong]
  | .call c a => by simp [evalStep, withConst, constAttempt_congr env r1 r2 hcong]

/-- Budget 2 is exact for the literal evaluator: any larger budget computes
the same results, because the one budget-consuming call happens on a
deep-const expression, whose evaluation (`evalLitB_deep`) ignores the budget
beyond one unit. This justifies `evalLitValue` standing for the source's
unbounded recursion. -/
theorem evalLitB_budget_stable (env : ConstEnv) (b : Nat) (e : Expr) :
    evalLitB env (b + 2) e = evalLitB env 2 e :=
  evalStep_congr env (evalLitB env (b + 1)) (evalLitB env 1)
    (fun c hc => evalLitB_deep c hc env b) e

/-! ## Claim C4 -/

/-- C4: `resolveConstExpression` terminates on every input. Any call entered
with depth greater than the ceiling 8 returns `none` (the reindexed fuel
`9 - depth` is zero), so resolution never recurses beyond the fixed bound —
in particular on the self-referential environment `{x -> x}` it terminates
(returning the bound expression via the `?? bound` fallback once the ceiling
cuts the chain). -/
theorem c4_resolve_depth_ceiling :
    (∀ (env : ConstEnv) (e : Expr) (depth : Nat), 8 < depth →
      resolveConstExpression env e depth = none)
    ∧ resolveConstExpression [("x", Expr.ident "x")] (Expr.ident "x") 0
        = some (Expr.ident "x") := by
  constructor
  · intro env e depth h
    unfold resolveConstExpression
    have h9 : 9 - depth = 0 := by omega
    rw [h9]
    rfl
  · decide

/-- Witness for C4 at depth 9. -/
theorem c4_witness :
    resolveConstExpression [] (Expr.numLit 0) 9 = none
    ∧ resolveConstExpression [("x", Expr.ident "x")] (Expr.ident "x") 0
        = some (Expr.ident "x") :=
  ⟨c4_resolve_depth_ceiling.1 [] (Expr.numLit 0) 9 (by decide),
    c4_resolve_depth_ceiling.2⟩

/-! ## Claim C3 -/

/-- The callee `addTwo = (a) => a + 2`. -/
def addTwoDecl : FnDecl :=
  { params := [{ dotDotDot := false, name := .bnId "a", initializer := none }]
    isArrow := true
    body := some (.exprBody (.binary .addOp (.ident "a") (.numLit 2)))
    isAsync := false }

/-- C3: inlining `addTwo(three)` with caller constant `three = 3` yields the
expression `three + 2`, not the literal `5`: the parameter is replaced by the
caller's identifier `three`, which is not bound in the parameter constant
environment (keyed by the parameter name `a`), so the binary node does not
fold. Quantified over every substitution fuel beyond the one unit the single
substitution consumes. -/
theorem c3_inline_preserves_alias_expression :
    ∀ fuel : Nat,
      inlineCallExpression (fuel + 2) [.ident "three"] addTwoDecl
          [("three", Expr.numLit 3)]
        = some (.binary .addOp (.ident "three") (.numLit 2))
      ∧ inlineCallExpression (fuel + 2) [.ident "three"] addTwoDecl
          [("three", Expr.numLit 3)]
        ≠ some (.numLit 5) := by
  intro fuel
  have h : inlineCallExpression (fuel + 2) [.ident "three"] addTwoDecl
      [("three", Expr.numLit 3)]
      = some (.binary .addOp (.ident "three") (.numLit 2)) := by
    simp [inlineCallExpression, addTwoDecl, bindCallParameters, bindParamsLoop,
      bindLocal, envSet, envHas, envSize, envGet, resolveConstExpression,
      resolveGo, isDeepConstExpr, isSimpleLiteral,
      substituteAndSimplifyExpression, simplifyB, simplifyStep, evalLitValue,
      evalLitB, evalStep, withConst, constAttempt, evalBinOp, List.find?]
  exact ⟨h, by rw [h]; simp⟩

/-! ## Claim C1 -/

/-- The body of `fn = (flag) => { if (flag) return 1; else return 2 }`. -/
def fnFlagBody : StmtList :=
  .cons
    (.sif (.ident "flag") (.ret (some (.numLit 1)))
      (.someElse (.ret (some (.numLit 2)))))
    .nil

/-- The callee of claim C1. -/
def fnFlagDecl : FnDecl :=
  { params := [{ dotDotDot := false, name := .bnId "flag", initializer := none }]
    isArrow := true
    body := some (.blockBody fnFlagBody)
    isAsync := false }

/-- The substituted condition of claim C1 at every fuel: no expression at all
at exhausted fuel, else the caller identifier `OFF` — never a boolean
literal. -/
theorem simplifyB_flag_cases (fuel : Nat) :
    simplifyB [("flag", Expr.ident "OFF")] [("flag", Expr.boolLit false)] fuel
        (.ident "flag") = none
    ∨ simplifyB [("flag", Expr.ident "OFF")] [("flag", Expr.boolLit false)] fuel
        (.ident "flag") = some (.ident "OFF") := by
  cases fuel with
  | zero => left; rfl
  | succ f =>
    cases f with
    | zero => left; simp [simplifyB, simplifyStep, envGet, List.find?]
    | succ g =>
      right
      simp [simplifyB, simplifyStep, envGet, List.find?]

/-- C1 evaluation at the failing input: the binder does build the argument map
`{flag -> OFF}` and the parameter constant environment `{flag -> false}`, but
the if/else reducer does not select the else branch: simplification rewrites
the condition `flag` to the caller identifier `OFF` (the parameter constant
environment, keyed by the parameter name, is never consulted for the
substituted identifier), `getBooleanLiteralValue` yields nothing on an
identifier, and both the reducer and the whole inlining return nothing at
every fuel — the repository's own integration test expects the literal `2`
here. -/
theorem c1_if_else_reduction_aborts_on_const_alias :
    ∀ fuel : Nat,
      bindCallParameters fnFlagDecl.params [.ident "OFF"]
          [("OFF", Expr.boolLit false)]
        = some ([("flag", Expr.ident "OFF")], [("flag", Expr.boolLit false)])
      ∧ substituteAndSimplifyExpression (fuel + 2) (.ident "flag")
          [("flag", Expr.ident "OFF")] [("flag", Expr.boolLit false)]
        = some (.ident "OFF")
      ∧ tryReduceIfElseChainToExpression fuel fnFlagBody
          [("flag", Expr.ident "OFF")] [("flag", Expr.boolLit false)]
        = none
      ∧ inlineCallExpression fuel [.ident "OFF"] fnFlagDecl
          [("OFF", Expr.boolLit false)]
        = none := by
  intro fuel
  have hred : tryReduceIfElseChainToExpression fuel fnFlagBody
      [("flag", Expr.ident "OFF")] [("flag", Expr.boolLit false)] = none := by
    rcases simplifyB_flag_cases fuel with h | h <;>
      simp [fnFlagBody, tryReduceIfElseChainToExpression, collectIfBranches,
        extractReturnExpressionFromStatement, evalCondValues,
        substituteAndSimplifyExpression, getBooleanLiteralValue, h]
  have hred2 := hred
  simp only [fnFlagBody] at hred2
  refine ⟨by decide, ?_, hred, ?_⟩
  · simp [substituteAndSimplifyExpression, simplifyB, simplifyStep, envGet,
      List.find?]
  · simp [inlineCallExpression, fnFlagDecl, fnFlagBody, bindCallParameters,
      bindParamsLoop, bindLocal, envSet, envHas, envSize, envGet,
      resolveConstExpression, resolveGo, isDeepConstExpr, isSimpleLiteral,
      List.find?, hred2, tryReduceSwitchToExpression]

/-! ## Claim C2 -/

/-- The body of
`label = (n) => { switch (n) { case 1: return "one"; case 2: return "two"; default: return "other" } }`. -/
def labelBody : StmtList :=
  .cons
    (.sswitch (.ident "n")
      (.cons (.caseClause (.numLit 1) (.cons (.ret (some (.strLit "one"))) .nil))
        (.cons (.caseClause (.numLit 2) (.cons (.ret (some (.strLit "two"))) .nil))
          (.cons (.defaultClause (.cons (.ret (some (.strLit "other"))) .nil))
            .nil))))
    .nil

/-- The callee of claim C2. -/
def labelDecl : FnDecl :=
  { params := [{ dotDotDot := false, name := .bnId "n", initializer := none }]
    isArrow := true
    body := some (.blockBody labelBody)
    isAsync := false }

/-- The substituted discriminant of claim C2 at every fuel: no expression at
exhausted fuel, else the caller identifier `TWO` — never a simple literal. -/
theorem simplifyB_discriminant_cases (fuel : Nat) :
    simplifyB [("n", Expr.ident "TWO")] [("n", Expr.numLit 2)] fuel
        (.ident "n") = none
    ∨ simplifyB [("n", Expr.ident "TWO")] [("n", Expr.numLit 2)] fuel
        (.ident "n") = some (.ident "TWO") := by
  cases fuel with
  | zero => left; rfl
  | succ f =>
    cases f with
    | zero => left; simp [simplifyB, simplifyStep, envGet, List.find?]
    | succ g =>
      right
      simp [simplifyB, simplifyStep, envGet, List.find?]

/-- C2 evaluation at the failing input: the binder builds `{n -> TWO}` and
`{n -> 2}`, but the switch reducer does not select the matching case:
simplification rewrites the discriminant `n` to the caller identifier `TWO`,
which is not a simple literal, so the reducer aborts and the whole inlining
returns nothing at every fuel — the repository's own integration test expects
the literal `"two"` here. -/
theorem c2_switch_reduction_aborts_on_const_alias :
    ∀ fuel : Nat,
      bindCallParameters labelDecl.params [.ident "TWO"]
          [("TWO", Expr.numLit 2)]
        = some ([("n", Expr.ident "TWO")], [("n", Expr.numLit 2)])
      ∧ substituteAndSimplifyExpression (fuel + 2) (.ident "n")
          [("n", Expr.ident "TWO")] [("n", Expr.numLit 2)]
        = some (.ident "TWO")
      ∧ isSimpleLiteral (Expr.ident "TWO") = false
      ∧ tryReduceSwitchToExpression fuel labelBody
          [("n", Expr.ident "TWO")] [("n", Expr.numLit 2)]
        = none
      ∧ inlineCallExpression fuel [.ident "TWO"] labelDecl
          [("TWO", Expr.numLit 2)]
        = none := by
  intro fuel
  have hsw : tryReduceSwitchToExpression fuel labelBody
      [("n", Expr.ident "TWO")] [("n", Expr.numLit 2)] = none := by
    rcases simplifyB_discriminant_cases fuel with h | h <;>
      simp [labelBody, tryReduceSwitchToExpression,
        substituteAndSimplifyExpression, isSimpleLiteral, h]
  have hsw2 := hsw
  simp only [labelBody] at hsw2
  refine ⟨by decide, ?_, by decide, hsw, ?_⟩
  · simp [substituteAndSimplifyExpression, simplifyB, simplifyStep, envGet,
      List.find?]
  · simp [inlineCallExpression, labelDecl, labelBody, bindCallParameters,
      bindParamsLoop, bindLocal, envSet, envHas, envSize, envGet,
      resolveConstExpression, resolveGo, isDeepConstExpr, isSimpleLiteral,
      List.find?, hsw2, tryReduceIfElseChainToExpression, collectIfBranches]

/-! ## Claim C7 -/

/-- The callee `sumTwo = ([x, y]) => x + y`. -/
def sumTwoDecl : FnDecl :=
  { params := [{ dotDotDot := false
                 name := .bnArrPattern
                   [.abe false false (.beId "x"), .abe false false (.beId "y")]
                 initializer := none }]
    isArrow := true
    body := some (.exprBody (.binary .addOp (.ident "x") (.ident "y")))
    isAsync := false }

/-- The callee `add = ({ a, b }) => a + b` (shorthand elements: no property
name of their own). -/
def addPairDecl : FnDecl :=
  { params := [{ dotDotDot := false
                 name := .bnObjPattern
                   [{ hasDotDotDot := false, hasInit := false,
                      propertyName := none, name := .beId "a" },
                    { hasDotDotDot := false, hasInit := false,
                      propertyName := none, name := .beId "b" }]
                 initializer := none }]
    isArrow := true
    body := some (.exprBody (.binary .addOp (.ident "a") (.ident "b")))
    isAsync := false }

/-- The caller constant environment of the array test
(`const tup = [10, 20]`). -/
def tupEnv : ConstEnv :=
  [("tup", .arrayLit (.cons (.numLit 10) (.cons (.numLit 20) .nil)))]

/-- The caller constant environment of the object test
(`const pair = { a: 1, b: 2 }`). -/
def pairEnv : ConstEnv :=
  [("pair",
    .objectLit (.cons (.propAssign (.pid "a") (.numLit 1))
      (.cons (.propAssign (.pid "b") (.numLit 2)) .nil)))]

/-- The argument map the binder builds for `add(pair)`: each object-pattern
element bound to a property access of the caller's identifier. -/
def pairArgMap : ConstEnv :=
  [("a", .propertyAccess (.ident "pair") "a"),
   ("b", .propertyAccess (.ident "pair") "b")]

/-- The parameter constant environment the binder builds for `add(pair)`. -/
def pairPce : ConstEnv := [("a", .numLit 1), ("b", .numLit 2)]

/-- Simplifying `pair.a` under the argument map of `add(pair)` yields no
expression at any fuel: the fallback's visit of the name identifier `a`
substitutes the very binding `a -> pair.a`, so the source recursion never
bottoms out (it overflows the JS stack); in the model every fuel is
exhausted. -/
theorem simplifyB_pair_member_no_result :
    ∀ fuel : Nat,
      simplifyB pairArgMap pairPce fuel (.propertyAccess (.ident "pair") "a")
        = none := by
  intro fuel
  induction fuel with
  | zero => rfl
  | succ f ih =>
    simp only [pairArgMap, pairPce] at ih ⊢
    simp [simplifyB, simplifyStep, envGet, List.find?, ih]

/-- C7 counterexample: inlining `({ a, b }) => a + b` applied to `pair`
produces no expression (so in particular not `pair.a + pair.b`): the
simplifier's fallback visits the property-access name with the substituting
visitor, and the binding `a -> pair.a` makes that visit recurse on `pair.a`
itself without end. -/
theorem c7_counterexample_object_pattern :
    inlineCallExpression 9 [.ident "pair"] addPairDecl pairEnv = none
    ∧ inlineCallExpression 9 [.ident "pair"] addPairDecl pairEnv
      ≠ some (.binary .addOp
          (.propertyAccess (.ident "pair") "a")
          (.propertyAccess (.ident "pair") "b")) := by
  constructor <;> decide

/-- C7 amended: the array-destructure binder binds a named element to an
element access of the effective argument at the current positional index and
advances the index, while an elision hole only advances the index (the first
two conjuncts are the two loop equations); inlining `([x, y]) => x + y`
applied to `tup` yields `tup[0] + tup[1]`; and the object-pattern binder does
bind `a -> pair.a, b -> pair.b` with constants `{a -> 1, b -> 2}`, but
inlining `({ a, b }) => a + b` applied to `pair` produces no expression at
any fuel — the simplifier's fallback visits the property-access name with the
substituting visitor, so the recursion on `pair.a` never completes (a stack
overflow in the source). -/
theorem c7_amended_destructure_binding :
    ∀ (arg : Expr) (tl : List ArrBindElem) (idx : Nat)
      (st : ConstEnv × ConstEnv) (nm : String) (fuel : Nat),
      bindArrElems [] arg (.omittedElem :: tl) idx st
        = bindArrElems [] arg tl (idx + 1) st
      ∧ bindArrElems [] arg (.abe false false (.beId nm) :: tl) idx st
        = bindArrElems [] arg tl (idx + 1)
            (bindLocal [] st nm (.elementAccess arg (.numLit (Int.ofNat idx))))
      ∧ inlineCallExpression (fuel + 2) [.ident "tup"] sumTwoDecl tupEnv
        = some (.binary .addOp
            (.elementAccess (.ident "tup") (.numLit 0))
            (.elementAccess (.ident "tup") (.numLit 1)))
      ∧ bindCallParameters addPairDecl.params [.ident "pair"] pairEnv
        = some (pairArgMap, pairPce)
      ∧ inlineCallExpression fuel [.ident "pair"] addPairDecl pairEnv
        = none := by
  intro arg tl idx st nm fuel
  refine ⟨rfl, rfl, ?_, by decide, ?_⟩
  · simp [sumTwoDecl, tupEnv, inlineCallExpression,
      bindCallParameters, bindParamsLoop, bindArrElems, bindLocal,
      envSet, envHas, envSize, envGet, resolveConstExpression, resolveGo,
      exprListGet, isDeepConstExpr, isSimpleLiteral, isDeepConstList,
      substituteAndSimplifyExpression, simplifyB, simplifyStep, evalLitValue,
      evalLitB, evalStep, withConst, constAttempt, evalBinOp, List.find?]
  · cases fuel with
    | zero => decide
    | succ f =>
      have hdiv := simplifyB_pair_member_no_result f
      simp only [pairArgMap, pairPce] at hdiv
      simp [addPairDecl, pairEnv, inlineCallExpression,
        bindCallParameters, bindParamsLoop, bindObjElems, bindLocal,
        envSet, envHas, envSize, envGet, resolveConstExpression, resolveGo,
        findPropInit, propNameText, isDeepConstExpr, isSimpleLiteral,
        isDeepConstProps, isDeepConstProp, propNameAdmissible,
        substituteAndSimplifyExpression, simplifyB, simplifyStep,
        List.find?, hdiv]

/-! ## Claim C5 -/

/-- The counterexample world for C5: the name is imported through a relative
specifier, the relative strategy fails (the module path does not resolve), and
the package strategy would succeed. -/
def c5World : ResolveWorld :=
  { localFn := none
    importInfo := some { moduleSpecifier := "./lib", isRelative := true }
    resolveRelative := fun _ => none
    readFile := fun _ => some "source-text"
    findExported := fun _ => some { tag := 7 }
    resolveNodeModule := fun _ => some "mod.js"
    fileExists := fun _ => true
    sourceMapLookup := fun _ => some { tag := 7 } }

/-- C5 counterexample: at `c5World` the relative-import strategy (strategy 2)
fails, the package strategy (strategy 3) would succeed, and
`resolveFunctionDefinition` nevertheless returns not-found — so a failing
strategy 2 does not fall through to strategy 3, refuting the claim as
stated. -/
theorem c5_counterexample_no_fallthrough :
    resolveFunctionDefinition c5World = none
    ∧ packageStrategy c5World "./lib" = some { tag := 7 } := by
  constructor <;> rfl

/-- C5 amended: the resolver tries the same file first, first success winning;
otherwise it inspects the import of the name — no import means not-found, and
exactly one of the relative-import and package strategies is attempted,
selected by whether the import specifier is relative; a failure inside the
selected strategy is returned as not-found without attempting the other
(within the package strategy, the sibling-source attempt falls through to the
source-map lookup, as `packageStrategy` spells out). -/
theorem c5_amended_resolver_cascade (w : ResolveWorld) :
    resolveFunctionDefinition w = specResolveCascade w := by
  unfold resolveFunctionDefinition specResolveCascade relativeStrategy
    packageStrategy
  cases hl : w.localFn with
  | some f => rfl
  | none =>
    cases hi : w.importInfo with
    | none => rfl
    | some info => cases info.isRelative <;> simp

/-! ## Claim C8 -/

/-- C8: with a resolved async callee, `runSmartInline` fails with the explicit
"not async" message when the enclosing function is not async, and with the
explicit "not awaited" message when the enclosing function is async but the
call is not the operand of an await; when the call is awaited inside an async
enclosing function the async-context check passes and the run proceeds to the
inlining tail. -/
theorem c8_async_gate :
    ∀ (fuel : Nat) (w : SmartWorld) (call : SelectedCall) (fn : FnDecl),
      w.selected = some call → call.calleeIsIdentifier = true →
      w.resolved = some fn → fn.isAsync = true →
      ((call.ctx.enclosingFunction = some false →
          runSmartInline fuel w
            = .errS "Cannot inline async function here: enclosing function is not async.")
        ∧ (call.ctx.enclosingFunction = some true → call.ctx.isAwaited = false →
          runSmartInline fuel w
            = .errS "Cannot inline async function here: the call is not awaited and inlining would change its behavior.")
        ∧ (call.ctx.enclosingFunction = some true → call.ctx.isAwaited = true →
          validateAsyncCallContext call.ctx = .okC
            ∧ runSmartInline fuel w = proceedInline fuel call fn)) := by
  intro fuel w call fn hsel hid hres hasync
  refine ⟨?_, ?_, ?_⟩
  · intro henc
    simp [runSmartInline, hsel, hid, hres, hasync, validateAsyncCallContext, henc]
  · intro henc hawait
    simp [runSmartInline, hsel, hid, hres, hasync, validateAsyncCallContext,
      henc, hawait]
  · intro henc hawait
    constructor
    · simp [validateAsyncCallContext, henc, hawait]
    · simp [runSmartInline, hsel, hid, hres, hasync, validateAsyncCallContext,
        henc, hawait]

/-- The awaited call context inside an async function, as in the repository's
passing async test. -/
def awaitedAsyncCtx : CallContext :=
  { isAwaited := true, enclosingFunction := some true, topLevelAwaitAllowed := false }

/-- The async callee `asyncFetch = async () => 42`. -/
def asyncFetchDecl : FnDecl :=
  { params := [], isArrow := true, body := some (.exprBody (.numLit 42)),
    isAsync := true }

/-- The selected call `await asyncFetch()` of the async success test. -/
def asyncCallSel : SelectedCall :=
  { calleeIsIdentifier := true, calleeName := "asyncFetch",
    ctx := awaitedAsyncCtx, args := [], scopes := [], callStart := 0 }

/-- Witness for C8: at the awaited-inside-async context the check passes and
the run proceeds (and the proceeding tail inlines `42`). -/
theorem c8_witness :
    (validateAsyncCallContext awaitedAsyncCtx = .okC
      ∧ runSmartInline 1 ⟨some asyncCallSel, some asyncFetchDecl⟩
          = proceedInline 1 asyncCallSel asyncFetchDecl)
    ∧ proceedInline 1 asyncCallSel asyncFetchDecl = .okS (.numLit 42) :=
  ⟨(c8_async_gate 1 ⟨some asyncCallSel, some asyncFetchDecl⟩ asyncCallSel
      asyncFetchDecl rfl rfl rfl rfl).2.2 rfl rfl,
    by decide⟩

/-! ## Claim C6 -/

/-- Every entry of an environment is deep-const. -/
def DeepEnv (env : ConstEnv) : Prop :=
  ∀ p ∈ env, isDeepConstExpr p.2 = true

/-- Membership after a `Map.set`: the new entry or an old one. -/
theorem mem_envSet (env : ConstEnv) (k : String) (v : Expr)
    (p : String × Expr) (hp : p ∈ envSet env k v) :
    p = (k, v) ∨ p ∈ env := by
  unfold envSet at hp
  by_cases h : envHas env k = true
  · rw [if_pos h] at hp
    rcases List.mem_map.mp hp with ⟨q, hq, heq⟩
    by_cases hqk : (q.1 == k) = true
    · rw [if_pos hqk] at heq
      left
      exact heq.symm
    · rw [if_neg hqk] at heq
      right
      rwa [heq] at hq
  · rw [if_neg h] at hp
    rcases List.mem_append.mp hp with hp | hp
    · right; exact hp
    · left; simpa using hp

/-- `bindLocal` keeps the parameter constant environment deep-const: a new
entry is stored only behind the `isDeepConstExpr` guard. -/
theorem bindLocal_deep (ce : ConstEnv) (st : ConstEnv × ConstEnv)
    (n : String) (v : Expr) (hst : DeepEnv st.2) :
    DeepEnv (bindLocal ce st n v).2 := by
  unfold bindLocal
  by_cases hce : envSize ce > 0
  · simp [hce]
    cases hr : resolveConstExpression ce v 0 with
    | none => exact hst
    | some c =>
      by_cases hdeep : isDeepConstExpr c = true
      · simp [hdeep]
        intro p hp
        rcases mem_envSet st.2 n c p hp with h | h
        · rw [h]; exact hdeep
        · exact hst p h
      · simp [hdeep]
        exact hst
  · simp [hce]
    exact hst

/-- The object-destructure loop keeps the parameter constant environment
deep-const. -/
theorem bindObjElems_deep (ce : ConstEnv) (arg : Expr) :
    ∀ (els : List ObjBindElem) (st st2 : ConstEnv × ConstEnv),
      DeepEnv st.2 → bindObjElems ce arg els st = some st2 → DeepEnv st2.2 := by
  intro els
  induction els with
  | nil =>
    intro st st2 hst h
    simp [bindObjElems] at h
    rw [← h]
    exact hst
  | cons el tl ih =>
    intro st st2 hst h
    obtain ⟨ddd, ini, pn, nm⟩ := el
    by_cases hflags : (ddd || ini) = true
    · simp [bindObjElems, hflags] at h
    · cases nm with
      | bePattern => simp [bindObjElems, hflags] at h
      | beId localName =>
        simp only [bindObjElems, if_neg hflags] at h
        cases hprop : pn.getD (PropName.pid localName) with
        | pid s =>
          rw [hprop] at h
          exact ih _ st2 (bindLocal_deep ce st localName _ hst) h
        | pstr s =>
          rw [hprop] at h
          exact ih _ st2 (bindLocal_deep ce st localName _ hst) h
        | pnum n =>
          rw [hprop] at h
          exact ih _ st2 (bindLocal_deep ce st localName _ hst) h
        | pcomputed => rw [hprop] at h; exact absurd h (by simp)

/-- The array-destructure loop keeps the parameter constant environment
deep-const. -/
theorem bindArrElems_deep (ce : ConstEnv) (arg : Expr) :
    ∀ (els : List ArrBindElem) (idx : Nat) (st st2 : ConstEnv × ConstEnv),
      DeepEnv st.2 → bindArrElems ce arg els idx st = some st2 → DeepEnv st2.2 := by
  intro els
  induction els with
  | nil =>
    intro idx st st2 hst h
    simp [bindArrElems] at h
    rw [← h]
    exact hst
  | cons el tl ih =>
    intro idx st st2 hst h
    cases el with
    | omittedElem =>
      unfold bindArrElems at h
      exact ih _ st st2 hst h
    | abe ddd ini nm =>
      by_cases hflags : (ddd || ini) = true
      · simp [bindArrElems, hflags] at h
      · cases nm with
        | bePattern => simp [bindArrElems, hflags] at h
        | beId localName =>
          simp only [bindArrElems, if_neg hflags] at h
          exact ih _ _ st2 (bindLocal_deep ce st localName _ hst) h

/-- The parameter loop keeps the parameter constant environment deep-const. -/
theorem bindParamsLoop_deep (ce : ConstEnv) (args : List Expr) :
    ∀ (params : List Param) (i : Nat) (st st2 : ConstEnv × ConstEnv),
      DeepEnv st.2 → bindParamsLoop ce args params i st = some st2 →
      DeepEnv st2.2 := by
  intro params
  induction params with
  | nil =>
    intro i st st2 hst h
    simp [bindParamsLoop] at h
    rw [← h]
    exact hst
  | cons p tl ih =>
    intro i st st2 hst h
    obtain ⟨ddd, pname, pinit⟩ := p
    by_cases hddd : ddd = true
    · simp [bindParamsLoop, hddd] at h
    · simp only [bindParamsLoop, if_neg hddd] at h
      cases harg : (args[i]?).or pinit with
      | none => rw [harg] at h; exact absurd h (by simp)
      | some effectiveArg =>
        rw [harg] at h
        cases pname with
        | bnId nm =>
          dsimp only [] at h
          exact ih _ _ st2 (bindLocal_deep ce st nm _ hst) h
        | bnObjPattern els =>
          dsimp only [] at h
          cases hbind : bindObjElems ce effectiveArg els st with
          | none => rw [hbind] at h; exact absurd h (by simp)
          | some stMid =>
            rw [hbind] at h
            exact ih _ _ st2 (bindObjElems_deep ce effectiveArg els st stMid hst hbind) h
        | bnArrPattern els =>
          dsimp only [] at h
          cases hbind : bindArrElems ce effectiveArg els 0 st with
          | none => rw [hbind] at h; exact absurd h (by simp)
          | some stMid =>
            rw [hbind] at h
            exact ih _ _ st2 (bindArrElems_deep ce effectiveArg els 0 st stMid hst hbind) h

/-- The declarator loop of the scope walk keeps the caller environment
deep-const. -/
theorem addConstDecls_deep (decls : List DeclModel) :
    ∀ acc : ConstEnv, DeepEnv acc → DeepEnv (addConstDecls acc decls) := by
  induction decls with
  | nil => intro acc hacc; exact hacc
  | cons d tl ih =>
    intro acc hacc
    obtain ⟨dname, dinit⟩ := d
    unfold addConstDecls
    apply ih
    cases dname with
    | none => exact hacc
    | some nm =>
      cases dinit with
      | none => exact hacc
      | some init =>
        by_cases hguard : (isDeepConstExpr init && !envHas acc nm) = true
        · simp only [if_pos hguard]
          intro p hp
          rcases mem_envSet acc nm init p hp with h | h
          · rw [h]
            exact (Bool.and_eq_true _ _ |>.mp hguard).1
          · exact hacc p h
        · simp only [if_neg hguard]
          exact hacc

/-- The statement loop of the scope walk keeps the caller environment
deep-const. -/
theorem collectFromBlock_deep (callStart : Nat) :
    ∀ (stmts : List ScopeStmt) (acc : ConstEnv),
      DeepEnv acc → DeepEnv (collectFromBlock callStart stmts acc) := by
  intro stmts
  induction stmts with
  | nil => intro acc hacc; exact hacc
  | cons stmt tl ih =>
    intro acc hacc
    unfold collectFromBlock
    by_cases hend : scopeStmtEnd stmt > callStart
    · simpa [hend] using hacc
    · simp [hend]
      apply ih
      cases stmt with
      | varStmt e isConst decls =>
        cases isConst with
        | true => exact addConstDecls_deep decls acc hacc
        | false => exact hacc
      | otherStmt e => exact hacc

/-- The whole scope fold keeps the caller environment deep-const. -/
theorem collectScopes_deep (scopes : List (List ScopeStmt)) (callStart : Nat) :
    ∀ acc : ConstEnv, DeepEnv acc →
      DeepEnv (scopes.foldl (fun a block => collectFromBlock callStart block a) acc) := by
  induction scopes with
  | nil => intro acc hacc; exact hacc
  | cons block tl ih =>
    intro acc hacc
    exact ih _ (collectFromBlock_deep callStart block acc hacc)

/-- C6: every binding stored in a constant environment is deep-literal — every
entry of the caller environment built by `collectLiteralConstsVisibleAtCall`,
and every entry of the parameter constant environment built by the binder's
`bindLocal`, satisfies `isDeepConstExpr`. -/
theorem c6_const_env_entries_deep :
    (∀ (scopes : List (List ScopeStmt)) (callStart : Nat) (p : String × Expr),
      p ∈ collectLiteralConstsVisibleAtCall scopes callStart →
      isDeepConstExpr p.2 = true)
    ∧ (∀ (params : List Param) (args : List Expr) (callerEnv : ConstEnv)
        (argMap pce : ConstEnv) (p : String × Expr),
      bindCallParameters params args callerEnv = some (argMap, pce) →
      p ∈ pce → isDeepConstExpr p.2 = true) := by
  constructor
  · intro scopes callStart p hp
    exact collectScopes_deep scopes callStart [] (by intro q hq; cases hq) p hp
  · intro params args callerEnv argMap pce p hbind hp
    exact bindParamsLoop_deep callerEnv args params 0 ([], []) (argMap, pce)
      (by intro q hq; cases hq) hbind p hp

/-- Witness for C6: one concrete entry of each environment kind is
deep-const. -/
theorem c6_witness : isDeepConstExpr (Expr.boolLit true) = true
    ∧ isDeepConstExpr (Expr.numLit 3) = true :=
  ⟨c6_const_env_entries_deep.1
      [[ScopeStmt.varStmt 5 true [{ name := some "ON", initializer := some (.boolLit true) }]]]
      10 ("ON", .boolLit true) (by decide),
    c6_const_env_entries_deep.2
      [{ dotDotDot := false, name := .bnId "a", initializer := none }]
      [.ident "three"] [("three", .numLit 3)]
      [("a", .ident "three")] [("a", .numLit 3)] ("a", .numLit 3)
      (by decide) (by decide)⟩

/-! ## Claim C9 -/

mutual
/-- One simplifier layer is the identity on a deep-const expression: literals
fall through unchanged, and deep-const arrays/objects (spread-free by
definition) report no change, so the source returns the original node. -/
theorem simplifyStep_deep_id (am pce : ConstEnv) (recS : Expr → Option Expr) :
    ∀ e : Expr, isDeepConstExpr e = true → simplifyStep am pce recS e = some e
  | .numLit _, _ => rfl
  | .strLit _, _ => rfl
  | .boolLit _, _ => rfl
  | .arrayLit els, h => by
    have hl := simplifyArrayElems_deep_id am pce recS els
      (by simpa [isDeepConstExpr] using h)
    simp [simplifyStep, hl]
  | .objectLit props, h => by
    have hl := simplifyProps_deep_id am pce recS props
      (by simpa [isDeepConstExpr] using h)
    simp [simplifyStep, hl]
  | .ident _, h => by simp [isDeepConstExpr, isSimpleLiteral] at h
  | .noSubTemplate _, h => by simp [isDeepConstExpr, isSimpleLiteral] at h
  | .template _ _, h => by simp [isDeepConstExpr, isSimpleLiteral] at h
  | .spreadElem _, h => by simp [isDeepConstExpr, isSimpleLiteral] at h
  | .omitted, h => by simp [isDeepConstExpr, isSimpleLiteral] at h
  | .propertyAccess _ _, h => by simp [isDeepConstExpr, isSimpleLiteral] at h
  | .elementAccess _ _, h => by simp [isDeepConstExpr, isSimpleLiteral] at h
  | .conditional _ _ _, h => by simp [isDeepConstExpr, isSimpleLiteral] at h
  | .binary _ _ _, h => by simp [isDeepConstExpr, isSimpleLiteral] at h
  | .unary _ _, h => by simp [isDeepConstExpr, isSimpleLiteral] at h
  | .paren _, h => by simp [isDeepConstExpr, isSimpleLiteral] at h
  | .call _ _, h => by simp [isDeepConstExpr, isSimpleLiteral] at h

/-- The element loop reports no change on a deep-const element list. -/
theorem simplifyArrayElems_deep_id (am pce : ConstEnv) (recS : Expr → Option Expr) :
    ∀ l : ExprList, isDeepConstList l = true →
      simplifyArrayElems am pce recS l = some (l, false)
  | .nil, _ => rfl
  | .cons e tl, h => by
    have he : isDeepConstExpr e = true :=
      ((Bool.and_eq_true _ _).mp (by simpa [isDeepConstList] using h)).1
    have htl : isDeepConstList tl = true :=
      ((Bool.and_eq_true _ _).mp (by simpa [isDeepConstList] using h)).2
    have hstep := simplifyStep_deep_id am pce recS e he
    have hrest := simplifyArrayElems_deep_id am pce recS tl htl
    cases e with
    | spreadElem e0 => simp [isDeepConstExpr, isSimpleLiteral] at he
    | _ => simp_all [simplifyArrayElems]

/-- The member loop reports no change on a deep-const property list. -/
theorem simplifyProps_deep_id (am pce : ConstEnv) (recS : Expr → Option Expr) :
    ∀ l : PropList, isDeepConstProps l = true →
      simplifyProps am pce recS l = some (l, false)
  | .nil, _ => rfl
  | .cons p tl, h => by
    have hp : isDeepConstProp p = true :=
      ((Bool.and_eq_true _ _).mp (by simpa [isDeepConstProps] using h)).1
    have htl : isDeepConstProps tl = true :=
      ((Bool.and_eq_true _ _).mp (by simpa [isDeepConstProps] using h)).2
    have hrest := simplifyProps_deep_id am pce recS tl htl
    cases p with
    | propAssign name init =>
      have hinit : isDeepConstExpr init = true :=
        ((Bool.and_eq_true _ _).mp (by simpa [isDeepConstProp] using hp)).2
      have hstep := simplifyStep_deep_id am pce recS init hinit
      simp_all [simplifyProps]
    | spreadAssign e0 => simp [isDeepConstProp] at hp
    | otherProp => simp [isDeepConstProp] at hp
end

/-- The fueled simplifier is the identity on deep-const expressions at every
positive fuel. -/
theorem simplifyB_deep_id (am pce : ConstEnv) (e : Expr)
    (h : isDeepConstExpr e = true) : ∀ fuel : Nat,
      simplifyB am pce (fuel + 1) e = some e := by
  intro fuel
  exact simplifyStep_deep_id am pce (simplifyB am pce fuel) e h

/-- C9: on deep-literal inputs, for every argument map, constant environment
and substitution fuel, one simplification pass returns the input unchanged
(any positive fuel suffices), hence simplification is idempotent —
feeding the pass's result back through the pass reproduces it,
`simplify (simplify e) = simplify e`. -/
theorem c9_simplify_idempotent_on_deep_literals :
    ∀ (e : Expr) (argMap pce : ConstEnv) (fuel : Nat),
      isDeepConstExpr e = true →
      substituteAndSimplifyExpression (fuel + 1) e argMap pce = some e
      ∧ (substituteAndSimplifyExpression fuel e argMap pce).bind
          (fun e2 => substituteAndSimplifyExpression fuel e2 argMap pce)
        = substituteAndSimplifyExpression fuel e argMap pce := by
  intro e argMap pce fuel h
  refine ⟨simplifyB_deep_id argMap pce e h fuel, ?_⟩
  cases fuel with
  | zero => rfl
  | succ f =>
    have hid : substituteAndSimplifyExpression (f + 1) e argMap pce = some e :=
      simplifyB_deep_id argMap pce e h f
    simp [hid]

/-- Witness for C9 at a concrete deep literal (a nested array/object
aggregate), a nonempty argument map and a nonempty constant environment. -/
theorem c9_witness :
    substituteAndSimplifyExpression 3
        (.arrayLit (.cons (.numLit 1)
          (.cons (.objectLit (.cons (.propAssign (.pid "a") (.strLit "x")) .nil))
            .nil)))
        [("v", .numLit 9)] [("w", .boolLit true)]
      = some (.arrayLit (.cons (.numLit 1)
          (.cons (.objectLit (.cons (.propAssign (.pid "a") (.strLit "x")) .nil))
            .nil)))
    ∧ (substituteAndSimplifyExpression 2
          (.arrayLit (.cons (.numLit 1)
            (.cons (.objectLit (.cons (.propAssign (.pid "a") (.strLit "x")) .nil))
              .nil)))
          [("v", .numLit 9)] [("w", .boolLit true)]).bind
        (fun e2 => substituteAndSimplifyExpression 2 e2
          [("v", .numLit 9)] [("w", .boolLit true)])
      = substituteAndSimplifyExpression 2
          (.arrayLit (.cons (.numLit 1)
            (.cons (.objectLit (.cons (.propAssign (.pid "a") (.strLit "x")) .nil))
              .nil)))
          [("v", .numLit 9)] [("w", .boolLit true)] :=
  c9_simplify_idempotent_on_deep_literals
    (.arrayLit (.cons (.numLit 1)
      (.cons (.objectLit (.cons (.propAssign (.pid "a") (.strLit "x")) .nil))
        .nil)))
    [("v", .numLit 9)] [("w", .boolLit true)] 2 (by decide)

/-! ## Claim C10 -/

/-- A safe evaluator outcome: no exception, and never the value `null`. -/
def evalResultSafe (r : Except String (Option JSVal)) : Prop :=
  ∃ v : Option JSVal, r = .ok v ∧ v ≠ some JSVal.vNull

/-- `.ok none` is safe. -/
theorem okNone_safe : evalResultSafe (.ok none) := ⟨none, rfl, by simp⟩

/-- A defined boolean/number/string value is safe. -/
theorem okVal_safe (v : JSVal) (h : v ≠ .vNull) :
    evalResultSafe (.ok (some v)) := ⟨some v, rfl, by simpa using h⟩

/-- JS `+` on defined values never yields `null`. -/
theorem jsAdd_ne_null (a b : JSVal) : jsAdd a b ≠ .vNull := by
  cases a <;> cases b <;> simp_all [jsAdd]

/-- The binary dispatch never yields `null`. -/
theorem evalBinOp_ne_null (op : BinOp) (a b v : JSVal)
    (h : evalBinOp op a b = some v) : v ≠ .vNull := by
  cases op <;> simp_all [evalBinOp, jsAdd_ne_null] <;> rw [← h] <;>
    simp [jsAdd_ne_null]

/-- The constant-environment attempt is safe whenever the recursive
evaluation it may invoke is. -/
theorem constAttempt_safe (env : ConstEnv)
    (recEval : Expr → Except String (Option JSVal))
    (hrec : ∀ c, evalResultSafe (recEval c)) (node : Expr) :
    evalResultSafe (constAttempt env recEval node) := by
  unfold constAttempt
  by_cases hsz : envSize env > 0
  · simp only [if_pos hsz]
    cases hres : resolveConstExpression env node 0 with
    | none => exact okNone_safe
    | some c =>
      by_cases hdeep : isDeepConstExpr c = true
      · simp only [if_pos hdeep]
        obtain ⟨v, hv, hnn⟩ := hrec c
        rw [hv]
        cases v with
        | none => exact okNone_safe
        | some x => exact okVal_safe x (by simpa using hnn)
      · simp only [if_neg hdeep]
        exact okNone_safe
  · simp only [if_neg hsz]
    exact okNone_safe

/-- `withConst` is safe when both the attempt and the structural result are. -/
theorem withConst_safe (env : ConstEnv)
    (recEval : Expr → Except String (Option JSVal)) (node : Expr)
    (sr : Except String (Option JSVal))
    (hattempt : evalResultSafe (constAttempt env recEval node))
    (hsr : evalResultSafe sr) : evalResultSafe (withConst env recEval node sr) := by
  unfold withConst
  obtain ⟨v, hv, hnn⟩ := hattempt
  rw [hv]
  cases v with
  | none => exact hsr
  | some x => exact okVal_safe x (by simpa using hnn)

/-- Every layer of the evaluator is safe when its recursive constant
evaluation is: the structural cases produce only booleans, numbers, strings
or no value, and the `null` guards of prefix `+`/`-` never fire because no
case produces `null`. -/
theorem evalStep_safe (env : ConstEnv)
    (recEval : Expr → Except String (Option JSVal))
    (hrec : ∀ c, evalResultSafe (recEval c)) :
    ∀ e : Expr, evalResultSafe (evalStep env recEval e)
  | .boolLit b =>
    withConst_safe env recEval _ _ (constAttempt_safe env recEval hrec _)
      (okVal_safe _ (by simp))
  | .numLit n =>
    withConst_safe env recEval _ _ (constAttempt_safe env recEval hrec _)
      (okVal_safe _ (by simp))
  | .strLit s =>
    withConst_safe env recEval _ _ (constAttempt_safe env recEval hrec _)
      (okVal_safe _ (by simp))
  | .unary op operand => by
    apply withConst_safe env recEval _ _ (constAttempt_safe env recEval hrec _)
    obtain ⟨v, hv, hnn⟩ := evalStep_safe env recEval hrec operand
    rw [hv]
    cases v with
    | none => exact okNone_safe
    | some x =>
      have hx : x ≠ .vNull := by simpa using hnn
      cases op with
      | bang => exact okVal_safe _ (by simp)
      | plusOp =>
        simp only [if_neg hx]
        exact okVal_safe _ (by simp)
      | minusOp =>
        simp only [if_neg hx]
        exact okVal_safe _ (by simp)
      | otherUn => exact okNone_safe
  | .paren inner => by
    apply withConst_safe env recEval _ _ (constAttempt_safe env recEval hrec _)
    exact evalStep_safe env recEval hrec inner
  | .binary op l r => by
    apply withConst_safe env recEval _ _ (constAttempt_safe env recEval hrec _)
    obtain ⟨lv, hlv, hlnn⟩ := evalStep_safe env recEval hrec l
    obtain ⟨rv, hrv, hrnn⟩ := evalStep_safe env recEval hrec r
    cases lv with
    | none =>
      simp only [hlv, hrv]
      exact okNone_safe
    | some a =>
      cases rv with
      | none =>
        simp only [hlv, hrv]
        exact okNone_safe
      | some b =>
        simp only [hlv, hrv]
        cases hop : evalBinOp op a b with
        | none =>
          simp only [hop]
          exact okNone_safe
        | some v =>
          simp only [hop]
          exact okVal_safe v (evalBinOp_ne_null op a b v hop)
  | .ident n =>
    withConst_safe env recEval _ _ (constAttempt_safe env recEval hrec _) okNone_safe
  | .noSubTemplate t =>
    withConst_safe env recEval _ _ (constAttempt_safe env recEval hrec _) okNone_safe
  | .template h sp =>
    withConst_safe env recEval _ _ (constAttempt_safe env recEval hrec _) okNone_safe
  | .arrayLit els =>
    withConst_safe env recEval _ _ (constAttempt_safe env recEval hrec _) okNone_safe
  | .spreadElem e =>
    withConst_safe env recEval _ _ (constAttempt_safe env recEval hrec _) okNone_safe
  | .omitted =>
    withConst_safe env recEval _ _ (constAttempt_safe env recEval hrec _) okNone_safe
  | .objectLit props =>
    withConst_safe env recEval _ _ (constAttempt_safe env recEval hrec _) okNone_safe
  | .propertyAccess b n =>
    withConst_safe env recEval _ _ (constAttempt_safe env recEval hrec _) okNone_safe
  | .elementAccess b i =>
    withConst_safe env recEval _ _ (constAttempt_safe env recEval hrec _) okNone_safe
  | .conditional c t f =>
    withConst_safe env recEval _ _ (constAttempt_safe env recEval hrec _) okNone_safe
  | .call c a =>
    withConst_safe env recEval _ _ (constAttempt_safe env recEval hrec _) okNone_safe

/-- C10: for every constant environment, budget and input expression, the
literal evaluator neither throws nor produces `null` — it returns a boolean,
number, string, or no value; in particular the two throwing guards of prefix
`+` and `-` are unreachable. -/
theorem c10_eval_never_throws_never_null :
    ∀ (env : ConstEnv) (budget : Nat) (e : Expr),
      ∃ v : Option JSVal, evalLitB env budget e = .ok v ∧ v ≠ some JSVal.vNull := by
  intro env budget
  induction budget with
  | zero => intro e; exact ⟨none, rfl, by simp⟩
  | succ b ih => intro e; exact evalStep_safe env (evalLitB env b) ih e

end SmartInline
